import Mathlib

/-!
# Verification of the rlox lexical scanner

A shallow embedding of `src/scanner.rs` (the `Scanner` type and its
methods), together with proofs of the specification's claims about it.

Modelling conventions:

* Rust `String` is modelled as `List Char` (the decoded UTF-8 text).
  The original code indexes the source *by character* through
  `source.chars().nth(current)`, but measures it and slices it *by byte*
  (`source.len()`, `source[a..b]`); the embedding keeps both views:
  `byteLen`/`byteSliceOpt` compute byte counts and byte-range slices
  over the character list.
* Every operation that can panic in Rust (`Option::unwrap` on a missing
  character, byte slicing outside a character boundary) returns an
  `Option`, with `none` standing for a panic.
* The scanning loops are expressed by structural recursion on an explicit
  fuel argument.  Each wrapper instantiates the fuel with
  `byteLen source + 1`, which is strictly larger than the number of
  iterations any of the loops can perform (the cursor grows by one per
  iteration and every loop exits once the cursor reaches the byte length),
  so the fuel-exhaustion branch is unreachable; this is re-proved where
  needed by the lemmas below.
-/

/-- Modelled from the spec: the closed token-kind enumeration of §6
(`token_type.rs` is not among the sources; the variant set and the
`Unknown` error kind are taken from the spec table and from the uses in
`scanner.rs` and `lox.rs`).  Keyword kinds carry a `kw` prefix because
their Rust spellings are Lean keywords. -/
inductive TokenType where
  | leftParen | rightParen | leftBrace | rightBrace | comma | dot | minus | plus | semicolon | slash | star
  | bang | bangEqual | equal | equalEqual | greater | greaterEqual | less | lessEqual
  | identifier | string | number
  | kwAnd | kwClass | kwElse | kwFalse | kwFor | kwFun | kwIf | kwNil | kwOr
  | kwPrint | kwReturn | kwSuper | kwThis | kwTrue | kwVar | kwWhile
  | unknown
  | eof
deriving DecidableEq, Repr

/-- Literal values (`scanner.rs` lines 5–10).  The `f64` payload of
`Number` is represented by the decoded numeral text: no claim observes
the floating-point value, only which token kinds and lexemes appear. -/
inductive Literal where
  | str : List Char → Literal
  | num : List Char → Literal
  | none : Literal
deriving DecidableEq, Repr

/-- Modelled from the spec: the Token record of §3 (`token.rs` is not
among the sources).  Field names follow the uses in `lox.rs`
(`token.token_type`, `token.line`) and the `Token::new` call sites in
`scanner.rs` (kind, lexeme text, literal, line). -/
structure Token where
  token_type : TokenType
  lexeme : List Char
  literal : Literal
  line : Nat
deriving DecidableEq, Repr

/-- Number of bytes of the UTF-8 encoding of one character
(Rust `char::len_utf8`). -/
def charLen (c : Char) : Nat :=
  if c.toNat < 0x80 then 1
  else if c.toNat < 0x800 then 2
  else if c.toNat < 0x10000 then 3
  else 4

/-- Byte length of a string, as Rust `String::len`. -/
def byteLen (s : List Char) : Nat := (s.map charLen).sum

/-- Drop `n` leading bytes from a character list; `none` when `n` is not
on a character boundary or exceeds the byte length (a Rust slicing
panic). -/
def byteDrop (s : List Char) (n : Nat) : Option (List Char) :=
  match s, n with
  | s, 0 => some s
  | [], _ + 1 => Option.none
  | c :: cs, n + 1 =>
    if charLen c ≤ n + 1 then byteDrop cs (n + 1 - charLen c) else Option.none

/-- Take `n` leading bytes from a character list; `none` when `n` is not
on a character boundary or exceeds the byte length. -/
def byteTake (s : List Char) (n : Nat) : Option (List Char) :=
  match s, n with
  | _, 0 => some []
  | [], _ + 1 => Option.none
  | c :: cs, n + 1 =>
    if charLen c ≤ n + 1 then (byteTake cs (n + 1 - charLen c)).map (c :: ·) else Option.none

/-- Rust byte-range slice `s[a..b]`; `none` models the panics (start
after end, end past the buffer, or either index off a character
boundary). -/
def byteSliceOpt (s : List Char) (a b : Nat) : Option (List Char) :=
  if a ≤ b then (byteDrop s a).bind (fun t => byteTake t (b - a)) else Option.none

/-- Character classification `Scanner::is_digit` (`scanner.rs` 228–230). -/
def is_digit (c : Char) : Bool := decide ('0' ≤ c ∧ c ≤ '9')

/-- Character classification `Scanner::is_alpha` (`scanner.rs` 224–226). -/
def is_alpha (c : Char) : Bool :=
  decide (('a' ≤ c ∧ c ≤ 'z') ∨ ('A' ≤ c ∧ c ≤ 'Z') ∨ c = '_')

/-- Character classification `Scanner::is_alpha_numeric` (`scanner.rs` 232–234). -/
def is_alpha_numeric (c : Char) : Bool := is_alpha c || is_digit c

/-- Keyword table built in `Scanner::new` (`scanner.rs` 29–48), modelled
as the lookup function the `HashMap` denotes. -/
def keywordOf (text : List Char) : Option TokenType :=
  if text = "and".toList then some .kwAnd
  else if text = "class".toList then some .kwClass
  else if text = "else".toList then some .kwElse
  else if text = "false".toList then some .kwFalse
  else if text = "for".toList then some .kwFor
  else if text = "fun".toList then some .kwFun
  else if text = "if".toList then some .kwIf
  else if text = "nil".toList then some .kwNil
  else if text = "or".toList then some .kwOr
  else if text = "print".toList then some .kwPrint
  else if text = "return".toList then some .kwReturn
  else if text = "super".toList then some .kwSuper
  else if text = "this".toList then some .kwThis
  else if text = "true".toList then some .kwTrue
  else if text = "var".toList then some .kwVar
  else if text = "while".toList then some .kwWhile
  else Option.none

/-- Scanner state (`scanner.rs` 12–19).  The `keywords` map is the
constant function `keywordOf` and is not carried in the state. -/
structure Scanner where
  source : List Char
  tokens : List Token
  start : Nat
  current : Nat
  line : Nat
deriving DecidableEq, Repr

/-- Constructor `Scanner::new` (`scanner.rs` 22–50). -/
def Scanner.new (source : List Char) : Scanner :=
  { source := source, tokens := [], start := 0, current := 0, line := 1 }

/-- Cursor test `Scanner::is_at_end` (`scanner.rs` 236–238): the
character cursor is compared against the *byte* length. -/
def Scanner.is_at_end (s : Scanner) : Bool := decide (byteLen s.source ≤ s.current)

/-- Cursor step `Scanner::advance` (`scanner.rs` 240–244):
`chars().nth(current).unwrap()`, so `none` when the character cursor is
past the last character. -/
def Scanner.advance (s : Scanner) : Option (Char × Scanner) :=
  match s.source[s.current]? with
  | some c => some (c, { s with current := s.current + 1 })
  | Option.none => Option.none

/-- Lookahead `Scanner::peek` (`scanner.rs` 209–214): NUL sentinel at
end of input (byte test), otherwise `chars().nth(current).unwrap()`. -/
def Scanner.peek (s : Scanner) : Option Char :=
  if s.is_at_end then some '\x00'
  else s.source[s.current]?

/-- Lookahead `Scanner::peek_next` (`scanner.rs` 216–222): NUL sentinel
when `current + 1` reaches the byte length. -/
def Scanner.peek_next (s : Scanner) : Option Char :=
  if byteLen s.source ≤ s.current + 1 then some '\x00'
  else s.source[s.current + 1]?

/-- Conditional consume `Scanner::match_char` (`scanner.rs` 198–207). -/
def Scanner.match_char (s : Scanner) (expected : Char) : Option (Bool × Scanner) :=
  if s.is_at_end then some (false, s)
  else
    match s.source[s.current]? with
    | Option.none => Option.none
    | some c =>
      if c ≠ expected then some (false, s)
      else some (true, { s with current := s.current + 1 })

/-- Token emission `Scanner::add_token_with_literal` (`scanner.rs`
250–254): the lexeme is the byte-range slice `source[start..current]`. -/
def Scanner.add_token_with_literal (s : Scanner) (tt : TokenType) (lit : Literal) :
    Option Scanner :=
  match byteSliceOpt s.source s.start s.current with
  | Option.none => Option.none
  | some text => some { s with tokens := s.tokens ++ [⟨tt, text, lit, s.line⟩] }

/-- Token emission `Scanner::add_token` (`scanner.rs` 246–248). -/
def Scanner.add_token (s : Scanner) (tt : TokenType) : Option Scanner :=
  s.add_token_with_literal tt Literal.none

/-- Fuel bound shared by all the scanning loops. -/
def Scanner.fuel (s : Scanner) : Nat := byteLen s.source + 1

/-- Comment-skipping loop of `Scanner::scan_token` (`scanner.rs`
117–119): `while peek() != '\n' && !is_at_end() { advance(); }`. -/
def commentLoopF : Nat → Scanner → Option Scanner
  | 0, _ => Option.none
  | fuel + 1, s =>
    match s.peek with
    | Option.none => Option.none
    | some c =>
      if c ≠ '\n' ∧ s.is_at_end = false then
        match s.advance with
        | Option.none => Option.none
        | some (_, s') => commentLoopF fuel s'
      else some s

/-- Digit-run loop of `Scanner::number` (`scanner.rs` 155–157 and
164–166): `while is_digit(peek()) { advance(); }`. -/
def digitsLoopF : Nat → Scanner → Option Scanner
  | 0, _ => Option.none
  | fuel + 1, s =>
    match s.peek with
    | Option.none => Option.none
    | some c =>
      if is_digit c then
        match s.advance with
        | Option.none => Option.none
        | some (_, s') => digitsLoopF fuel s'
      else some s

/-- Identifier loop of `Scanner::identifier` (`scanner.rs` 140–142):
`while is_alpha_numeric(peek()) { advance(); }`. -/
def identLoopF : Nat → Scanner → Option Scanner
  | 0, _ => Option.none
  | fuel + 1, s =>
    match s.peek with
    | Option.none => Option.none
    | some c =>
      if is_alpha_numeric c then
        match s.advance with
        | Option.none => Option.none
        | some (_, s') => identLoopF fuel s'
      else some s

/-- Body loop of `Scanner::string` (`scanner.rs` 177–182):
`while peek() != '"' && !is_at_end() { if peek() == '\n' { line += 1 }; advance(); }`. -/
def stringLoopF : Nat → Scanner → Option Scanner
  | 0, _ => Option.none
  | fuel + 1, s =>
    match s.peek with
    | Option.none => Option.none
    | some c =>
      if c ≠ '"' ∧ s.is_at_end = false then
        match (if c = '\n' then { s with line := s.line + 1 } else s).advance with
        | Option.none => Option.none
        | some (_, s') => stringLoopF fuel s'
      else some s

/-- Acceptance condition of Rust's `str::parse::<f64>` restricted to the
texts the scanner can slice out for a number.  Over the digit-and-dot
alphabet, Rust's float grammar accepts exactly the texts with at least
one digit and at most one dot; on text outside that alphabet this model
reports failure, which is sound for the embedding because such a slice
can arise only on a source whose byte and character indices have already
diverged (a non-ASCII source), and no such scan ever completes. -/
def parseF64Ok (text : List Char) : Bool :=
  text.any is_digit && text.all (fun c => is_digit c || c = '.') &&
    decide (text.count '.' ≤ 1)

/-- Fractional-part step of `Scanner::number` (`scanner.rs` 159–167):
`if peek() == '.' && is_digit(peek_next()) { advance(); while is_digit(peek()) { advance(); } }`,
with the short-circuit evaluation order of `&&`. -/
def Scanner.numberFrac (s1 : Scanner) : Option Scanner :=
  match s1.peek with
  | Option.none => Option.none
  | some c1 =>
    if c1 = '.' then
      match s1.peek_next with
      | Option.none => Option.none
      | some c2 =>
        if is_digit c2 then
          match s1.advance with
          | Option.none => Option.none
          | some (_, s2) => digitsLoopF s2.fuel s2
        else some s1
    else some s1

/-- Number scanning `Scanner::number` (`scanner.rs` 154–174).  The
`parse::<f64>().unwrap()` is the `parseF64Ok` guard (`none` = panic). -/
def Scanner.number (s : Scanner) : Option Scanner :=
  match digitsLoopF s.fuel s with
  | Option.none => Option.none
  | some s1 =>
    match s1.numberFrac with
    | Option.none => Option.none
    | some s2 =>
      match byteSliceOpt s2.source s2.start s2.current with
      | Option.none => Option.none
      | some text =>
        if parseF64Ok text then s2.add_token_with_literal .number (Literal.num text)
        else Option.none

/-- Identifier/keyword scanning `Scanner::identifier` (`scanner.rs`
139–152). -/
def Scanner.identifier (s : Scanner) : Option Scanner :=
  match identLoopF s.fuel s with
  | Option.none => Option.none
  | some s1 =>
    match byteSliceOpt s1.source s1.start s1.current with
    | Option.none => Option.none
    | some text => s1.add_token ((keywordOf text).getD .identifier)

/-- String scanning `Scanner::string` (`scanner.rs` 176–196). -/
def Scanner.string (s : Scanner) : Option Scanner :=
  match stringLoopF s.fuel s with
  | Option.none => Option.none
  | some s1 =>
    if s1.is_at_end then s1.add_token .unknown
    else
      match s1.advance with
      | Option.none => Option.none
      | some (_, s2) =>
        match byteSliceOpt s2.source (s2.start + 1) (s2.current - 1) with
        | Option.none => Option.none
        | some value => s2.add_token_with_literal .string (Literal.str value)

/-- Dispatch `Scanner::scan_token` (`scanner.rs` 69–137), written as the
if-chain the Rust `match` on the consumed character denotes. -/
def Scanner.scan_token (s : Scanner) : Option Scanner :=
  match s.advance with
  | Option.none => Option.none
  | some (c, s) =>
    if c = '(' then s.add_token .leftParen
    else if c = ')' then s.add_token .rightParen
    else if c = '\x7b' then s.add_token .leftBrace
    else if c = '\x7d' then s.add_token .rightBrace
    else if c = ',' then s.add_token .comma
    else if c = '.' then s.add_token .dot
    else if c = '-' then s.add_token .minus
    else if c = '+' then s.add_token .plus
    else if c = ';' then s.add_token .semicolon
    else if c = '*' then s.add_token .star
    else if c = '!' then
      match s.match_char '=' with
      | Option.none => Option.none
      | some (m, s) => s.add_token (if m then .bangEqual else .bang)
    else if c = '=' then
      match s.match_char '=' with
      | Option.none => Option.none
      | some (m, s) => s.add_token (if m then .equalEqual else .equal)
    else if c = '<' then
      match s.match_char '=' with
      | Option.none => Option.none
      | some (m, s) => s.add_token (if m then .lessEqual else .less)
    else if c = '>' then
      match s.match_char '=' with
      | Option.none => Option.none
      | some (m, s) => s.add_token (if m then .greaterEqual else .greater)
    else if c = '/' then
      match s.match_char '/' with
      | Option.none => Option.none
      | some (m, s) => if m then commentLoopF s.fuel s else s.add_token .slash
    else if c = ' ' ∨ c = '\r' ∨ c = '\t' then some s
    else if c = '\n' then some { s with line := s.line + 1 }
    else if c = '"' then s.string
    else if is_digit c then s.number
    else if is_alpha c then s.identifier
    else s.add_token .unknown

/-- Top-level loop of `Scanner::scan_tokens` (`scanner.rs` 53–57):
`while !is_at_end() { start = current; scan_token(); }`. -/
def scanLoopF : Nat → Scanner → Option Scanner
  | 0, _ => Option.none
  | fuel + 1, s =>
    if s.is_at_end then some s
    else
      match Scanner.scan_token { s with start := s.current } with
      | Option.none => Option.none
      | some s' => scanLoopF fuel s'

/-- The scanning loop with its fuel instantiated. -/
def Scanner.scanLoop (s : Scanner) : Option Scanner := scanLoopF s.fuel s

/-- Entry point `Scanner::scan_tokens` (`scanner.rs` 52–67): run the
loop, push the Eof token into the token buffer, return (a clone of) the
buffer together with the mutated scanner state. -/
def Scanner.scan_tokens (s : Scanner) : Option (List Token × Scanner) :=
  match s.scanLoop with
  | Option.none => Option.none
  | some s1 =>
    let s2 := { s1 with tokens := s1.tokens ++ [⟨.eof, [], Literal.none, s1.line⟩] }
    some (s2.tokens, s2)

/-- Scanning a fresh source, as `Lox::run` does: `Scanner::new`
followed by one `scan_tokens` call, observing the returned vector. -/
def scanTokens (source : List Char) : Option (List Token) :=
  (Scanner.new source).scan_tokens.map Prod.fst

/-! ## Byte-length and ASCII lemmas -/

/-- A source text is ASCII when every character encodes in one byte. -/
def asciiOnly (s : List Char) : Prop := ∀ c ∈ s, c.toNat < 128

instance (s : List Char) : Decidable (asciiOnly s) := by
  unfold asciiOnly; infer_instance

/-- Character-index slice: the characters in positions `[a, b)`. -/
def sliceCC (s : List Char) (a b : Nat) : List Char := (s.drop a).take (b - a)

/-- Number of newline characters in a span. -/
def countNL (l : List Char) : Nat := l.count '\n'

/-- One carved piece of the source text: the consumed span, and the token
it produced (`none` for a discarded whitespace/comment span). -/
structure Seg where
  text : List Char
  tok : Option Token
deriving DecidableEq, Repr

/-- The source text covered by a segment list. -/
def segsText (l : List Seg) : List Char := (l.map Seg.text).flatten

/-- The tokens emitted by a segment list, in order. -/
def segsTokens (l : List Seg) : List Token := l.filterMap Seg.tok

/-- A discarded span: a single whitespace/newline character, or a `//`
comment (which never contains its terminating newline). -/
def discardSpan (g : List Char) : Prop :=
  g = [' '] ∨ g = ['\r'] ∨ g = ['\t'] ∨ g = ['\n'] ∨
    ∃ rest, g = '/' :: '/' :: rest ∧ '\n' ∉ rest

/-- Well-formedness of a segment list whose first span starts on the
1-based line `line`: a token segment carries its span as lexeme and
records `line` plus the newlines inside its span (so, its first
character's line for every token whose lexeme contains no newline), and
is never the Eof token; a token-less segment is a discarded
whitespace/comment span. -/
def segsOK : Nat → List Seg → Prop
  | _, [] => True
  | line, sg :: rest =>
    (match sg.tok with
     | some t => t.lexeme = sg.text ∧ t.line = line + countNL sg.text ∧
         t.token_type ≠ TokenType.eof
     | Option.none => discardSpan sg.text) ∧
    segsOK (line + countNL sg.text) rest

/-- The lexeme the specification prescribes for a number literal starting
at position `p`: the maximal digit run, extended by a fractional part
exactly when a `.` immediately follows the run and a digit immediately
follows that `.`. -/
def numberLexemeSpec (src : List Char) (p : Nat) : List Char :=
  match src[p + ((src.drop p).takeWhile is_digit).length]?,
      src[p + ((src.drop p).takeWhile is_digit).length + 1]? with
  | some c1, some c2 =>
    if c1 = '.' ∧ is_digit c2 = true then
      (src.drop p).takeWhile is_digit ++
        '.' :: (src.drop (p + ((src.drop p).takeWhile is_digit).length + 1)).takeWhile is_digit
    else (src.drop p).takeWhile is_digit
  | _, _ => (src.drop p).takeWhile is_digit

/-- What one successful `scan_token` call does to a state whose `start`
has just been reset to `current`: it consumes a non-empty span of the
source, keeps within bounds, advances `line` by the newlines of the
consumed span, and either discards the span (whitespace or a comment) or
appends exactly one non-Eof token whose lexeme is the span and whose
recorded line is the start line plus the newlines inside the lexeme. -/
def StepOK (s t : Scanner) : Prop :=
  t.source = s.source ∧
  s.current < t.current ∧
  t.current ≤ s.source.length ∧
  t.line = s.line + countNL (sliceCC s.source s.current t.current) ∧
  ((t.tokens = s.tokens ∧ discardSpan (sliceCC s.source s.current t.current)) ∨
    ∃ tk, t.tokens = s.tokens ++ [tk] ∧
      tk.lexeme = sliceCC s.source s.current t.current ∧
      tk.line = s.line + countNL tk.lexeme ∧
      tk.token_type ≠ TokenType.eof)

theorem one_le_charLen (c : Char) : 1 ≤ charLen c := by
  unfold charLen
  split
  · omega
  · split
    · omega
    · split <;> omega

theorem charLen_eq_one {c : Char} (h : c.toNat < 128) : charLen c = 1 := by
  unfold charLen; simp [h]

theorem charLen_of_ascii_eq_one {c : Char} (h : charLen c = 1) : c.toNat < 128 := by
  by_contra hc
  unfold charLen at h
  rw [if_neg hc] at h
  split at h
  · omega
  · split at h <;> omega

theorem length_le_byteLen (s : List Char) : s.length ≤ byteLen s := by
  induction s with
  | nil => simp [byteLen]
  | cons c cs ih =>
    have := one_le_charLen c
    simp only [byteLen, List.map_cons, List.sum_cons, List.length_cons]
    simp only [byteLen] at ih
    omega

theorem byteLen_cons (c : Char) (cs : List Char) :
    byteLen (c :: cs) = charLen c + byteLen cs := by
  simp [byteLen]

theorem ascii_byteLen {s : List Char} (h : asciiOnly s) : byteLen s = s.length := by
  induction s with
  | nil => simp [byteLen]
  | cons c cs ih =>
    have hc : c.toNat < 128 := h c (by simp)
    rw [byteLen_cons, charLen_eq_one hc, ih (fun x hx => h x (by simp [hx]))]
    simp only [List.length_cons]
    omega

theorem ascii_of_byteLen_eq {s : List Char} (h : byteLen s = s.length) : asciiOnly s := by
  induction s with
  | nil => intro c hc; simp at hc
  | cons c cs ih =>
    rw [byteLen_cons] at h
    simp only [List.length_cons] at h
    have h1 := one_le_charLen c
    have h2 := length_le_byteLen cs
    have hc1 : charLen c = 1 := by omega
    intro x hx
    rcases List.mem_cons.mp hx with rfl | hx
    · exact charLen_of_ascii_eq_one hc1
    · exact ih (by omega) x hx

theorem asciiOnly_drop {s : List Char} (h : asciiOnly s) (n : Nat) :
    asciiOnly (s.drop n) := fun c hc => h c (List.mem_of_mem_drop hc)

theorem byteDrop_ascii {s : List Char} (h : asciiOnly s) :
    ∀ n, n ≤ s.length → byteDrop s n = some (s.drop n) := by
  induction s with
  | nil =>
    intro n hn
    simp only [List.length_nil, Nat.le_zero] at hn
    subst hn
    simp [byteDrop]
  | cons c cs ih =>
    intro n hn
    match n with
    | 0 => simp [byteDrop]
    | n + 1 =>
      have hc : charLen c = 1 := charLen_eq_one (h c (by simp))
      simp only [byteDrop, hc]
      rw [if_pos (by omega)]
      have : n + 1 - 1 = n := by omega
      rw [this, ih (fun x hx => h x (by simp [hx])) n (by simpa using hn)]
      simp

theorem byteTake_ascii {s : List Char} (h : asciiOnly s) :
    ∀ n, n ≤ s.length → byteTake s n = some (s.take n) := by
  induction s with
  | nil =>
    intro n hn
    simp only [List.length_nil, Nat.le_zero] at hn
    subst hn
    simp [byteTake]
  | cons c cs ih =>
    intro n hn
    match n with
    | 0 => simp [byteTake]
    | n + 1 =>
      have hc : charLen c = 1 := charLen_eq_one (h c (by simp))
      simp only [byteTake, hc]
      rw [if_pos (by omega)]
      have : n + 1 - 1 = n := by omega
      rw [this, ih (fun x hx => h x (by simp [hx])) n (by simpa using hn)]
      simp


theorem byteSliceOpt_ascii {s : List Char} (h : asciiOnly s) {a b : Nat}
    (hab : a ≤ b) (hb : b ≤ s.length) :
    byteSliceOpt s a b = some (sliceCC s a b) := by
  unfold byteSliceOpt sliceCC
  rw [if_pos hab, byteDrop_ascii h a (le_trans hab hb)]
  show byteTake (s.drop a) (b - a) = _
  exact byteTake_ascii (asciiOnly_drop h a) (b - a) (by rw [List.length_drop]; omega)

theorem sliceCC_singleton {s : List Char} {a : Nat} (ha : a < s.length) :
    sliceCC s a (a + 1) = [s[a]] := by
  unfold sliceCC
  have h1 : a + 1 - a = 1 := by omega
  rw [h1, List.drop_eq_getElem_cons ha, List.take_succ_cons, List.take_zero]

theorem sliceCC_pair {s : List Char} {a : Nat} (ha : a + 1 < s.length) :
    sliceCC s a (a + 2) = [s[a], s[a + 1]] := by
  unfold sliceCC
  have h2 : a + 2 - a = 2 := by omega
  rw [h2, List.drop_eq_getElem_cons (show a < s.length by omega), List.drop_eq_getElem_cons ha,
    List.take_succ_cons, List.take_succ_cons, List.take_zero]

theorem sliceCC_append_drop {s : List Char} {a b : Nat} (hab : a ≤ b) :
    sliceCC s a b ++ s.drop b = s.drop a := by
  unfold sliceCC
  have : s.drop b = (s.drop a).drop (b - a) := by
    rw [List.drop_drop]; congr 1; omega
  rw [this, List.take_append_drop]

/-! ## takeWhile helpers -/

theorem takeWhile_length_le (pr : Char → Bool) (l : List Char) :
    (l.takeWhile pr).length ≤ l.length := by
  induction l with
  | nil => simp
  | cons c cs ih =>
    rw [List.takeWhile_cons]
    split
    · simp only [List.length_cons]; omega
    · simp

theorem take_length_takeWhile (pr : Char → Bool) (l : List Char) :
    l.take (l.takeWhile pr).length = l.takeWhile pr := by
  induction l with
  | nil => simp
  | cons c cs ih =>
    rw [List.takeWhile_cons]
    split <;> simp [List.take_succ_cons, ih]

theorem getElem?_length_takeWhile (pr : Char → Bool) (l : List Char)
    (h : (l.takeWhile pr).length < l.length) :
    ∃ c, l[(l.takeWhile pr).length]? = some c ∧ pr c = false := by
  induction l with
  | nil => simp at h
  | cons c cs ih =>
    rw [List.takeWhile_cons]
    rw [List.takeWhile_cons] at h
    by_cases hc : pr c
    · simp only [hc, if_pos] at h ⊢
      simp only [List.length_cons] at h
      have := ih (by omega)
      simpa using this
    · simp only [hc] at h ⊢
      simp [hc]

theorem takeWhile_eq_of_all (pr : Char → Bool) (l : List Char)
    (h : ∀ c ∈ l, pr c = true) : l.takeWhile pr = l := by
  induction l with
  | nil => simp
  | cons c cs ih =>
    rw [List.takeWhile_cons, if_pos (h c (by simp))]
    rw [ih (fun x hx => h x (by simp [hx]))]

/-! ## Operation lemmas -/

theorem Scanner.advance_some_fields {s : Scanner} {c : Char} {s' : Scanner}
    (h : s.advance = some (c, s')) :
    s'.source = s.source ∧ s'.tokens = s.tokens ∧ s'.start = s.start ∧ s'.line = s.line ∧
      s'.current = s.current + 1 ∧ s.current < s.source.length ∧
      s.source[s.current]? = some c := by
  unfold Scanner.advance at h
  cases hg : s.source[s.current]? with
  | none => rw [hg] at h; simp at h
  | some a =>
    rw [hg] at h
    simp only [Option.some_inj, Prod.mk.injEq] at h
    obtain ⟨rfl, rfl⟩ := h
    exact ⟨rfl, rfl, rfl, rfl, rfl, (List.getElem?_eq_some_iff.mp hg).1, rfl⟩

theorem Scanner.advance_lt {s : Scanner} (h : s.current < s.source.length) :
    s.advance = some (s.source[s.current], { s with current := s.current + 1 }) := by
  unfold Scanner.advance
  rw [List.getElem?_eq_getElem h]

theorem Scanner.match_char_cases {s : Scanner} {e : Char} {m : Bool} {s' : Scanner}
    (h : s.match_char e = some (m, s')) :
    (m = false ∧ s' = s) ∨
      (m = true ∧ s.source[s.current]? = some e ∧ s' = { s with current := s.current + 1 }) := by
  unfold Scanner.match_char at h
  split at h
  · simp only [Option.some_inj, Prod.mk.injEq] at h
    exact Or.inl ⟨h.1.symm, h.2.symm⟩
  · split at h
    · exact Option.noConfusion h
    · rename_i c hg
      split at h
      · simp only [Option.some_inj, Prod.mk.injEq] at h
        exact Or.inl ⟨h.1.symm, h.2.symm⟩
      · rename_i hc
        simp only [Option.some_inj, Prod.mk.injEq] at h
        obtain ⟨hm, hs⟩ := h
        simp only [ne_eq, Decidable.not_not] at hc
        right
        refine ⟨hm.symm, ?_, hs.symm⟩
        rw [hg, hc]

theorem Scanner.add_token_with_literal_some {s : Scanner} {tt : TokenType} {lit : Literal}
    {s' : Scanner} (h : s.add_token_with_literal tt lit = some s') :
    ∃ text, byteSliceOpt s.source s.start s.current = some text ∧
      s' = { s with tokens := s.tokens ++ [⟨tt, text, lit, s.line⟩] } := by
  unfold Scanner.add_token_with_literal at h
  cases hb : byteSliceOpt s.source s.start s.current with
  | none => rw [hb] at h; simp at h
  | some text =>
    rw [hb] at h
    simp only [Option.some_inj] at h
    exact ⟨text, rfl, h.symm⟩

theorem Scanner.add_token_some {s : Scanner} {tt : TokenType} {s' : Scanner}
    (h : s.add_token tt = some s') :
    ∃ text, byteSliceOpt s.source s.start s.current = some text ∧
      s' = { s with tokens := s.tokens ++ [⟨tt, text, Literal.none, s.line⟩] } :=
  Scanner.add_token_with_literal_some h

/-! ## Unconditional bounds: a successful step keeps the character cursor
within the character count, and the scanning loop exits only at or past
the byte length.  Combined with `length ≤ byteLen` this forces a source
on which `scan_tokens` returns to be ASCII. -/

theorem commentLoopF_bounds :
    ∀ fuel (s s' : Scanner), commentLoopF fuel s = some s' →
      s'.source = s.source ∧ s'.tokens = s.tokens ∧ s'.start = s.start ∧
        s.current ≤ s'.current ∧ s'.current ≤ max s.current s.source.length := by
  intro fuel
  induction fuel with
  | zero => intro s s' h; exact Option.noConfusion h
  | succ n ih =>
    intro s s' h
    rw [commentLoopF] at h
    split at h
    · exact Option.noConfusion h
    · split at h
      · split at h
        · exact Option.noConfusion h
        · rename_i a s1 ha
          obtain ⟨h1, h2, h3, _, h5, h6, _⟩ := Scanner.advance_some_fields ha
          obtain ⟨g1, g2, g3, g4, g5⟩ := ih s1 s' h
          refine ⟨g1.trans h1, g2.trans h2, g3.trans h3, by omega, ?_⟩
          rw [h1] at g5
          omega
      · simp only [Option.some_inj] at h
        subst h
        exact ⟨rfl, rfl, rfl, le_refl _, le_max_left _ _⟩

theorem digitsLoopF_bounds :
    ∀ fuel (s s' : Scanner), digitsLoopF fuel s = some s' →
      s'.source = s.source ∧ s'.tokens = s.tokens ∧ s'.start = s.start ∧
        s.current ≤ s'.current ∧ s'.current ≤ max s.current s.source.length := by
  intro fuel
  induction fuel with
  | zero => intro s s' h; exact Option.noConfusion h
  | succ n ih =>
    intro s s' h
    rw [digitsLoopF] at h
    split at h
    · exact Option.noConfusion h
    · split at h
      · split at h
        · exact Option.noConfusion h
        · rename_i a s1 ha
          obtain ⟨h1, h2, h3, _, h5, h6, _⟩ := Scanner.advance_some_fields ha
          obtain ⟨g1, g2, g3, g4, g5⟩ := ih s1 s' h
          refine ⟨g1.trans h1, g2.trans h2, g3.trans h3, by omega, ?_⟩
          rw [h1] at g5
          omega
      · simp only [Option.some_inj] at h
        subst h
        exact ⟨rfl, rfl, rfl, le_refl _, le_max_left _ _⟩

theorem identLoopF_bounds :
    ∀ fuel (s s' : Scanner), identLoopF fuel s = some s' →
      s'.source = s.source ∧ s'.tokens = s.tokens ∧ s'.start = s.start ∧
        s.current ≤ s'.current ∧ s'.current ≤ max s.current s.source.length := by
  intro fuel
  induction fuel with
  | zero => intro s s' h; exact Option.noConfusion h
  | succ n ih =>
    intro s s' h
    rw [identLoopF] at h
    split at h
    · exact Option.noConfusion h
    · split at h
      · split at h
        · exact Option.noConfusion h
        · rename_i a s1 ha
          obtain ⟨h1, h2, h3, _, h5, h6, _⟩ := Scanner.advance_some_fields ha
          obtain ⟨g1, g2, g3, g4, g5⟩ := ih s1 s' h
          refine ⟨g1.trans h1, g2.trans h2, g3.trans h3, by omega, ?_⟩
          rw [h1] at g5
          omega
      · simp only [Option.some_inj] at h
        subst h
        exact ⟨rfl, rfl, rfl, le_refl _, le_max_left _ _⟩

theorem stringLoopF_bounds :
    ∀ fuel (s s' : Scanner), stringLoopF fuel s = some s' →
      s'.source = s.source ∧ s'.tokens = s.tokens ∧ s'.start = s.start ∧
        s.current ≤ s'.current ∧ s'.current ≤ max s.current s.source.length := by
  intro fuel
  induction fuel with
  | zero => intro s s' h; exact Option.noConfusion h
  | succ n ih =>
    intro s s' h
    rw [stringLoopF] at h
    split at h
    · exact Option.noConfusion h
    · rename_i c hp
      split at h
      · by_cases hnl : c = '\n'
        · rw [if_pos hnl] at h
          split at h
          · exact Option.noConfusion h
          · rename_i a s1 ha
            obtain ⟨h1, h2, h3, _, h5, h6, _⟩ := Scanner.advance_some_fields ha
            have e1 : ({ s with line := s.line + 1 } : Scanner).source = s.source := rfl
            have e2 : ({ s with line := s.line + 1 } : Scanner).tokens = s.tokens := rfl
            have e3 : ({ s with line := s.line + 1 } : Scanner).start = s.start := rfl
            have e4 : ({ s with line := s.line + 1 } : Scanner).current = s.current := rfl
            rw [e1] at h1 h6
            rw [e2] at h2
            rw [e3] at h3
            rw [e4] at h5
            obtain ⟨g1, g2, g3, g4, g5⟩ := ih s1 s' h
            refine ⟨g1.trans h1, g2.trans h2, g3.trans h3, by omega, ?_⟩
            rw [h1] at g5
            omega
        · rw [if_neg hnl] at h
          split at h
          · exact Option.noConfusion h
          · rename_i a s1 ha
            obtain ⟨h1, h2, h3, _, h5, h6, _⟩ := Scanner.advance_some_fields ha
            obtain ⟨g1, g2, g3, g4, g5⟩ := ih s1 s' h
            refine ⟨g1.trans h1, g2.trans h2, g3.trans h3, by omega, ?_⟩
            rw [h1] at g5
            omega
      · simp only [Option.some_inj] at h
        subst h
        exact ⟨rfl, rfl, rfl, le_refl _, le_max_left _ _⟩

theorem Scanner.numberFrac_bounds {s1 s' : Scanner} (hc : s1.current ≤ s1.source.length)
    (h : s1.numberFrac = some s') :
    s'.source = s1.source ∧ s'.current ≤ s1.source.length := by
  unfold Scanner.numberFrac at h
  split at h
  · exact Option.noConfusion h
  · split at h
    · split at h
      · exact Option.noConfusion h
      · split at h
        · split at h
          · exact Option.noConfusion h
          · rename_i a s2 ha
            obtain ⟨a1, _, _, _, a5, a6, _⟩ := Scanner.advance_some_fields ha
            obtain ⟨g1, _, _, _, g5⟩ := digitsLoopF_bounds _ _ _ h
            constructor
            · rw [g1, a1]
            · rw [a1] at g5
              omega
        · simp only [Option.some_inj] at h
          subst h
          exact ⟨rfl, hc⟩
    · simp only [Option.some_inj] at h
      subst h
      exact ⟨rfl, hc⟩

theorem Scanner.number_bounds {s s' : Scanner} (hc : s.current ≤ s.source.length)
    (h : s.number = some s') :
    s'.source = s.source ∧ s'.current ≤ s.source.length := by
  unfold Scanner.number at h
  split at h
  · exact Option.noConfusion h
  · rename_i s1 h1
    obtain ⟨b1, _, _, _, b5⟩ := digitsLoopF_bounds _ _ _ h1
    have hc1 : s1.current ≤ s1.source.length := by rw [b1]; omega
    split at h
    · exact Option.noConfusion h
    · rename_i s2 h2
      obtain ⟨c1, c2⟩ := Scanner.numberFrac_bounds hc1 h2
      split at h
      · exact Option.noConfusion h
      · split at h
        · obtain ⟨t2, _, rfl⟩ := Scanner.add_token_with_literal_some h
          constructor
          · show s2.source = s.source
            rw [c1, b1]
          · show s2.current ≤ s.source.length
            rw [b1] at c2
            exact c2
        · exact Option.noConfusion h

theorem Scanner.identifier_bounds {s s' : Scanner} (hc : s.current ≤ s.source.length)
    (h : s.identifier = some s') :
    s'.source = s.source ∧ s'.current ≤ s.source.length := by
  unfold Scanner.identifier at h
  split at h
  · exact Option.noConfusion h
  · rename_i s1 h1
    obtain ⟨b1, _, _, _, b5⟩ := identLoopF_bounds _ _ _ h1
    split at h
    · exact Option.noConfusion h
    · obtain ⟨t2, _, rfl⟩ := Scanner.add_token_some h
      constructor
      · show s1.source = s.source
        exact b1
      · show s1.current ≤ s.source.length
        omega

theorem Scanner.string_bounds {s s' : Scanner} (hc : s.current ≤ s.source.length)
    (h : s.string = some s') :
    s'.source = s.source ∧ s'.current ≤ s.source.length := by
  unfold Scanner.string at h
  split at h
  · exact Option.noConfusion h
  · rename_i s1 h1
    obtain ⟨b1, _, _, _, b5⟩ := stringLoopF_bounds _ _ _ h1
    have hc1 : s1.current ≤ s.source.length := by omega
    split at h
    · obtain ⟨t2, _, rfl⟩ := Scanner.add_token_some h
      exact ⟨b1, hc1⟩
    · split at h
      · exact Option.noConfusion h
      · rename_i a s2 ha
        obtain ⟨a1, _, _, _, a5, a6, _⟩ := Scanner.advance_some_fields ha
        split at h
        · exact Option.noConfusion h
        · obtain ⟨t2, _, rfl⟩ := Scanner.add_token_with_literal_some h
          constructor
          · show s2.source = s.source
            rw [a1, b1]
          · show s2.current ≤ s.source.length
            rw [b1] at a6
            omega

theorem Scanner.scan_token_bounds {s s' : Scanner}
    (h : s.scan_token = some s') :
    s'.source = s.source ∧ s'.current ≤ s.source.length := by
  unfold Scanner.scan_token at h
  split at h
  · exact Option.noConfusion h
  · rename_i c s1 ha
    obtain ⟨a1, a2, a3, a4, a5, a6, a7⟩ := Scanner.advance_some_fields ha
    have hc1 : s1.current ≤ s1.source.length := by rw [a1, a5]; omega
    have hAdd : ∀ (tt : TokenType) (s2 : Scanner), s2.source = s1.source →
        s2.current ≤ s1.source.length → s2.add_token tt = some s' →
        s'.source = s.source ∧ s'.current ≤ s.source.length := by
      intro tt s2 e1 e2 hh
      obtain ⟨t2, _, rfl⟩ := Scanner.add_token_some hh
      constructor
      · show s2.source = s.source
        rw [e1, a1]
      · show s2.current ≤ s.source.length
        rw [a1] at e2
        exact e2
    by_cases hb1 : c = '('
    case pos => rw [if_pos hb1] at h; exact hAdd _ s1 rfl hc1 h
    rw [if_neg hb1] at h
    by_cases hb2 : c = ')'
    case pos => rw [if_pos hb2] at h; exact hAdd _ s1 rfl hc1 h
    rw [if_neg hb2] at h
    by_cases hb3 : c = '\x7b'
    case pos => rw [if_pos hb3] at h; exact hAdd _ s1 rfl hc1 h
    rw [if_neg hb3] at h
    by_cases hb4 : c = '\x7d'
    case pos => rw [if_pos hb4] at h; exact hAdd _ s1 rfl hc1 h
    rw [if_neg hb4] at h
    by_cases hb5 : c = ','
    case pos => rw [if_pos hb5] at h; exact hAdd _ s1 rfl hc1 h
    rw [if_neg hb5] at h
    by_cases hb6 : c = '.'
    case pos => rw [if_pos hb6] at h; exact hAdd _ s1 rfl hc1 h
    rw [if_neg hb6] at h
    by_cases hb7 : c = '-'
    case pos => rw [if_pos hb7] at h; exact hAdd _ s1 rfl hc1 h
    rw [if_neg hb7] at h
    by_cases hb8 : c = '+'
    case pos => rw [if_pos hb8] at h; exact hAdd _ s1 rfl hc1 h
    rw [if_neg hb8] at h
    by_cases hb9 : c = ';'
    case pos => rw [if_pos hb9] at h; exact hAdd _ s1 rfl hc1 h
    rw [if_neg hb9] at h
    by_cases hb10 : c = '*'
    case pos => rw [if_pos hb10] at h; exact hAdd _ s1 rfl hc1 h
    rw [if_neg hb10] at h
    by_cases hb11 : c = '!'
    case pos =>
      rw [if_pos hb11] at h
      cases hm : s1.match_char '=' with
      | none => rw [hm] at h; exact Option.noConfusion h
      | some p =>
        obtain ⟨m, s2⟩ := p
        rw [hm] at h
        have h' : s2.add_token (if m then TokenType.bangEqual else TokenType.bang) = some s' := h
        rcases Scanner.match_char_cases hm with ⟨_, rfl⟩ | ⟨_, hg, rfl⟩
        · exact hAdd _ _ rfl hc1 h'
        · refine hAdd _ { s1 with current := s1.current + 1 } rfl ?_ h'
          have := (List.getElem?_eq_some_iff.mp hg).1
          show s1.current + 1 ≤ s1.source.length
          omega
    rw [if_neg hb11] at h
    by_cases hb12 : c = '='
    case pos =>
      rw [if_pos hb12] at h
      cases hm : s1.match_char '=' with
      | none => rw [hm] at h; exact Option.noConfusion h
      | some p =>
        obtain ⟨m, s2⟩ := p
        rw [hm] at h
        have h' : s2.add_token (if m then TokenType.equalEqual else TokenType.equal) = some s' := h
        rcases Scanner.match_char_cases hm with ⟨_, rfl⟩ | ⟨_, hg, rfl⟩
        · exact hAdd _ _ rfl hc1 h'
        · refine hAdd _ { s1 with current := s1.current + 1 } rfl ?_ h'
          have := (List.getElem?_eq_some_iff.mp hg).1
          show s1.current + 1 ≤ s1.source.length
          omega
    rw [if_neg hb12] at h
    by_cases hb13 : c = '<'
    case pos =>
      rw [if_pos hb13] at h
      cases hm : s1.match_char '=' with
      | none => rw [hm] at h; exact Option.noConfusion h
      | some p =>
        obtain ⟨m, s2⟩ := p
        rw [hm] at h
        have h' : s2.add_token (if m then TokenType.lessEqual else TokenType.less) = some s' := h
        rcases Scanner.match_char_cases hm with ⟨_, rfl⟩ | ⟨_, hg, rfl⟩
        · exact hAdd _ _ rfl hc1 h'
        · refine hAdd _ { s1 with current := s1.current + 1 } rfl ?_ h'
          have := (List.getElem?_eq_some_iff.mp hg).1
          show s1.current + 1 ≤ s1.source.length
          omega
    rw [if_neg hb13] at h
    by_cases hb14 : c = '>'
    case pos =>
      rw [if_pos hb14] at h
      cases hm : s1.match_char '=' with
      | none => rw [hm] at h; exact Option.noConfusion h
      | some p =>
        obtain ⟨m, s2⟩ := p
        rw [hm] at h
        have h' : s2.add_token (if m then TokenType.greaterEqual else TokenType.greater) =
          some s' := h
        rcases Scanner.match_char_cases hm with ⟨_, rfl⟩ | ⟨_, hg, rfl⟩
        · exact hAdd _ _ rfl hc1 h'
        · refine hAdd _ { s1 with current := s1.current + 1 } rfl ?_ h'
          have := (List.getElem?_eq_some_iff.mp hg).1
          show s1.current + 1 ≤ s1.source.length
          omega
    rw [if_neg hb14] at h
    by_cases hb15 : c = '/'
    case pos =>
      rw [if_pos hb15] at h
      cases hm : s1.match_char '/' with
      | none => rw [hm] at h; exact Option.noConfusion h
      | some p =>
        obtain ⟨m, s2⟩ := p
        rw [hm] at h
        have h' : (if m then commentLoopF s2.fuel s2 else s2.add_token TokenType.slash) =
          some s' := h
        have hs2 : s2.source = s1.source ∧ s2.current ≤ s1.source.length := by
          rcases Scanner.match_char_cases hm with ⟨_, rfl⟩ | ⟨_, hg, rfl⟩
          · exact ⟨rfl, hc1⟩
          · refine ⟨rfl, ?_⟩
            have := (List.getElem?_eq_some_iff.mp hg).1
            show s1.current + 1 ≤ s1.source.length
            omega
        cases m with
        | true =>
          rw [if_pos rfl] at h'
          obtain ⟨g1, _, _, _, g5⟩ := commentLoopF_bounds _ _ _ h'
          constructor
          · rw [g1, hs2.1, a1]
          · have h2 := hs2.2
            rw [hs2.1] at g5
            rw [← a1]
            omega
        | false =>
          rw [if_neg (by simp)] at h'
          exact hAdd _ _ hs2.1 hs2.2 h'
    rw [if_neg hb15] at h
    by_cases hb16 : c = ' ' ∨ c = '\r' ∨ c = '\t'
    case pos =>
      rw [if_pos hb16] at h
      have e := Option.some.inj h
      subst e
      exact ⟨a1, by rw [← a1]; exact hc1⟩
    rw [if_neg hb16] at h
    by_cases hb17 : c = '\n'
    case pos =>
      rw [if_pos hb17] at h
      have e := Option.some.inj h
      subst e
      refine ⟨a1, ?_⟩
      show s1.current ≤ s.source.length
      rw [← a1]
      exact hc1
    rw [if_neg hb17] at h
    by_cases hb18 : c = '"'
    case pos =>
      rw [if_pos hb18] at h
      obtain ⟨g1, g2⟩ := Scanner.string_bounds hc1 h
      exact ⟨g1.trans a1, by rw [← a1]; exact g2⟩
    rw [if_neg hb18] at h
    by_cases hb19 : is_digit c = true
    case pos =>
      rw [if_pos hb19] at h
      obtain ⟨g1, g2⟩ := Scanner.number_bounds hc1 h
      exact ⟨g1.trans a1, by rw [← a1]; exact g2⟩
    rw [if_neg hb19] at h
    by_cases hb20 : is_alpha c = true
    case pos =>
      rw [if_pos hb20] at h
      obtain ⟨g1, g2⟩ := Scanner.identifier_bounds hc1 h
      exact ⟨g1.trans a1, by rw [← a1]; exact g2⟩
    rw [if_neg hb20] at h
    exact hAdd _ s1 rfl hc1 h

theorem scanLoopF_bounds :
    ∀ fuel (s s' : Scanner), s.current ≤ s.source.length → scanLoopF fuel s = some s' →
      s'.source = s.source ∧ s'.current ≤ s.source.length ∧
        byteLen s'.source ≤ s'.current := by
  intro fuel
  induction fuel with
  | zero => intro s s' _ h; exact Option.noConfusion h
  | succ n ih =>
    intro s s' hc h
    rw [scanLoopF] at h
    split at h
    · simp only [Option.some_inj] at h
      subst h
      rename_i hend
      unfold Scanner.is_at_end at hend
      exact ⟨rfl, hc, by simpa using hend⟩
    · split at h
      · exact Option.noConfusion h
      · rename_i s1 hst
        obtain ⟨g1, g2⟩ := Scanner.scan_token_bounds hst
        have g1' : s1.source = s.source := g1
        have g2' : s1.current ≤ s.source.length := g2
        obtain ⟨f1, f2, f3⟩ := ih s1 s' (by rw [g1']; exact g2') h
        rw [g1'] at f1 f2
        exact ⟨f1, f2, f3⟩

/-- A source on which a fresh scan returns must be pure ASCII: the loop
only exits with the cursor at or past the byte length, the cursor never
passes the character count, and every character takes at least one
byte. -/
theorem scanTokens_some_ascii {src : List Char} {x : List Token × Scanner}
    (h : (Scanner.new src).scan_tokens = some x) : asciiOnly src := by
  unfold Scanner.scan_tokens Scanner.scanLoop at h
  cases hl : scanLoopF (Scanner.new src).fuel (Scanner.new src) with
  | none => rw [hl] at h; exact Option.noConfusion h
  | some s1 =>
    obtain ⟨g1, g2, g3⟩ := scanLoopF_bounds _ _ _ (Nat.zero_le _) hl
    have e1 : s1.source = src := g1
    have e2 : s1.current ≤ src.length := g2
    rw [e1] at g3
    have := length_le_byteLen src
    exact ascii_of_byteLen_eq (by omega)

/-! ## Exact behaviour of the primitives on ASCII sources -/

theorem Scanner.is_at_end_false {s : Scanner} (hb : byteLen s.source = s.source.length)
    (hlt : s.current < s.source.length) : s.is_at_end = false := by
  unfold Scanner.is_at_end
  simp only [decide_eq_false_iff_not]
  omega

theorem Scanner.is_at_end_true {s : Scanner} (hge : byteLen s.source ≤ s.current) :
    s.is_at_end = true := by
  unfold Scanner.is_at_end
  simpa using hge

theorem Scanner.peek_lt {s : Scanner} (hb : byteLen s.source = s.source.length)
    (hlt : s.current < s.source.length) :
    s.peek = some s.source[s.current] := by
  unfold Scanner.peek
  rw [Scanner.is_at_end_false hb hlt]
  simp only [Bool.false_eq_true, if_false]
  exact List.getElem?_eq_getElem hlt

theorem Scanner.peek_ge {s : Scanner} (hge : byteLen s.source ≤ s.current) :
    s.peek = some '\x00' := by
  unfold Scanner.peek
  rw [Scanner.is_at_end_true hge]
  simp

theorem Scanner.peek_next_lt {s : Scanner} (hb : byteLen s.source = s.source.length)
    (hlt : s.current + 1 < s.source.length) :
    s.peek_next = some s.source[s.current + 1] := by
  unfold Scanner.peek_next
  rw [if_neg (by omega)]
  exact List.getElem?_eq_getElem hlt

theorem Scanner.peek_next_ge {s : Scanner} (hge : byteLen s.source ≤ s.current + 1) :
    s.peek_next = some '\x00' := by
  unfold Scanner.peek_next
  rw [if_pos hge]

theorem Scanner.match_char_hit {s : Scanner} {e : Char}
    (hb : byteLen s.source = s.source.length) (hlt : s.current < s.source.length)
    (he : s.source[s.current] = e) :
    s.match_char e = some (true, { s with current := s.current + 1 }) := by
  unfold Scanner.match_char
  rw [Scanner.is_at_end_false hb hlt]
  simp only [Bool.false_eq_true, if_false]
  rw [List.getElem?_eq_getElem hlt]
  simp [he]

theorem Scanner.match_char_miss {s : Scanner} {e : Char}
    (hb : byteLen s.source = s.source.length) (hlt : s.current < s.source.length)
    (he : s.source[s.current] ≠ e) :
    s.match_char e = some (false, s) := by
  unfold Scanner.match_char
  rw [Scanner.is_at_end_false hb hlt]
  simp only [Bool.false_eq_true, if_false]
  rw [List.getElem?_eq_getElem hlt]
  simp [he]

theorem Scanner.match_char_end {s : Scanner} {e : Char}
    (hge : byteLen s.source ≤ s.current) :
    s.match_char e = some (false, s) := by
  unfold Scanner.match_char
  rw [Scanner.is_at_end_true hge]
  simp

theorem Scanner.add_token_with_literal_ascii {s : Scanner} {tt : TokenType} {lit : Literal}
    (ha : asciiOnly s.source) (h1 : s.start ≤ s.current) (h2 : s.current ≤ s.source.length) :
    s.add_token_with_literal tt lit =
      some { s with tokens :=
        s.tokens ++ [⟨tt, sliceCC s.source s.start s.current, lit, s.line⟩] } := by
  unfold Scanner.add_token_with_literal
  rw [byteSliceOpt_ascii ha h1 h2]

theorem Scanner.add_token_ascii {s : Scanner} {tt : TokenType}
    (ha : asciiOnly s.source) (h1 : s.start ≤ s.current) (h2 : s.current ≤ s.source.length) :
    s.add_token tt =
      some { s with tokens :=
        s.tokens ++ [⟨tt, sliceCC s.source s.start s.current, Literal.none, s.line⟩] } :=
  Scanner.add_token_with_literal_ascii ha h1 h2

/-! ## Exact behaviour of the loops on ASCII sources -/

theorem digitsLoopF_succ_peek {n : Nat} {s : Scanner} {c : Char} (hp : s.peek = some c) :
    digitsLoopF (n + 1) s =
      if is_digit c then
        match s.advance with
        | Option.none => Option.none
        | some (_, s') => digitsLoopF n s'
      else some s := by
  rw [digitsLoopF, hp]

theorem identLoopF_succ_peek {n : Nat} {s : Scanner} {c : Char} (hp : s.peek = some c) :
    identLoopF (n + 1) s =
      if is_alpha_numeric c then
        match s.advance with
        | Option.none => Option.none
        | some (_, s') => identLoopF n s'
      else some s := by
  rw [identLoopF, hp]

theorem commentLoopF_succ_peek {n : Nat} {s : Scanner} {c : Char} (hp : s.peek = some c) :
    commentLoopF (n + 1) s =
      if c ≠ '\n' ∧ s.is_at_end = false then
        match s.advance with
        | Option.none => Option.none
        | some (_, s') => commentLoopF n s'
      else some s := by
  rw [commentLoopF, hp]

theorem stringLoopF_succ_peek {n : Nat} {s : Scanner} {c : Char} (hp : s.peek = some c) :
    stringLoopF (n + 1) s =
      if c ≠ '"' ∧ s.is_at_end = false then
        match (if c = '\n' then { s with line := s.line + 1 } else s).advance with
        | Option.none => Option.none
        | some (_, s') => stringLoopF n s'
      else some s := by
  rw [stringLoopF, hp]

theorem digitsLoopF_ascii :
    ∀ fuel (s : Scanner), asciiOnly s.source → s.current ≤ s.source.length →
      s.source.length - s.current < fuel →
      digitsLoopF fuel s =
        some { s with current :=
          s.current + ((s.source.drop s.current).takeWhile is_digit).length } := by
  intro fuel
  induction fuel with
  | zero => intro s _ _ hf; omega
  | succ n ih =>
    intro s ha hc hf
    have hb : byteLen s.source = s.source.length := ascii_byteLen ha
    by_cases hlt : s.current < s.source.length
    · rw [digitsLoopF_succ_peek (Scanner.peek_lt hb hlt)]
      by_cases hd : is_digit s.source[s.current] = true
      · rw [if_pos hd, Scanner.advance_lt hlt]
        show digitsLoopF n { s with current := s.current + 1 } = _
        have ih2 := ih { s with current := s.current + 1 } ha
          (show s.current + 1 ≤ s.source.length from hlt)
          (show s.source.length - (s.current + 1) < n by omega)
        rw [ih2]
        simp only [Option.some_inj, Scanner.mk.injEq, true_and, and_true]
        rw [List.drop_eq_getElem_cons hlt, List.takeWhile_cons, if_pos hd]
        simp only [List.length_cons]
        omega
      · rw [if_neg hd]
        rw [List.drop_eq_getElem_cons hlt, List.takeWhile_cons, if_neg hd]
        simp
    · rw [digitsLoopF_succ_peek (Scanner.peek_ge (by omega))]
      rw [if_neg (by decide)]
      rw [List.drop_eq_nil_of_le (by omega : s.source.length ≤ s.current)]
      simp

theorem identLoopF_ascii :
    ∀ fuel (s : Scanner), asciiOnly s.source → s.current ≤ s.source.length →
      s.source.length - s.current < fuel →
      identLoopF fuel s =
        some { s with current :=
          s.current + ((s.source.drop s.current).takeWhile is_alpha_numeric).length } := by
  intro fuel
  induction fuel with
  | zero => intro s _ _ hf; omega
  | succ n ih =>
    intro s ha hc hf
    have hb : byteLen s.source = s.source.length := ascii_byteLen ha
    by_cases hlt : s.current < s.source.length
    · rw [identLoopF_succ_peek (Scanner.peek_lt hb hlt)]
      by_cases hd : is_alpha_numeric s.source[s.current] = true
      · rw [if_pos hd, Scanner.advance_lt hlt]
        show identLoopF n { s with current := s.current + 1 } = _
        have ih2 := ih { s with current := s.current + 1 } ha
          (show s.current + 1 ≤ s.source.length from hlt)
          (show s.source.length - (s.current + 1) < n by omega)
        rw [ih2]
        simp only [Option.some_inj, Scanner.mk.injEq, true_and, and_true]
        rw [List.drop_eq_getElem_cons hlt, List.takeWhile_cons, if_pos hd]
        simp only [List.length_cons]
        omega
      · rw [if_neg hd]
        rw [List.drop_eq_getElem_cons hlt, List.takeWhile_cons, if_neg hd]
        simp
    · rw [identLoopF_succ_peek (Scanner.peek_ge (by omega))]
      rw [if_neg (by decide)]
      rw [List.drop_eq_nil_of_le (by omega : s.source.length ≤ s.current)]
      simp

theorem commentLoopF_ascii :
    ∀ fuel (s : Scanner), asciiOnly s.source → s.current ≤ s.source.length →
      s.source.length - s.current < fuel →
      commentLoopF fuel s =
        some { s with current :=
          s.current +
            ((s.source.drop s.current).takeWhile (fun c => decide (c ≠ '\n'))).length } := by
  intro fuel
  induction fuel with
  | zero => intro s _ _ hf; omega
  | succ n ih =>
    intro s ha hc hf
    have hb : byteLen s.source = s.source.length := ascii_byteLen ha
    by_cases hlt : s.current < s.source.length
    · rw [commentLoopF_succ_peek (Scanner.peek_lt hb hlt)]
      by_cases hd : s.source[s.current] = '\n'
      · rw [if_neg (by simp [hd])]
        rw [List.drop_eq_getElem_cons hlt, List.takeWhile_cons,
          if_neg (by simp [hd])]
        simp
      · rw [if_pos ⟨hd, Scanner.is_at_end_false hb hlt⟩, Scanner.advance_lt hlt]
        show commentLoopF n { s with current := s.current + 1 } = _
        have ih2 := ih { s with current := s.current + 1 } ha
          (show s.current + 1 ≤ s.source.length from hlt)
          (show s.source.length - (s.current + 1) < n by omega)
        rw [ih2]
        simp only [Option.some_inj, Scanner.mk.injEq, true_and, and_true]
        rw [List.drop_eq_getElem_cons hlt, List.takeWhile_cons,
          if_pos (by simpa using hd)]
        simp only [List.length_cons]
        omega
    · rw [commentLoopF_succ_peek (Scanner.peek_ge (by omega))]
      rw [if_neg (by
        rw [Scanner.is_at_end_true (by omega)]
        simp)]
      rw [List.drop_eq_nil_of_le (by omega : s.source.length ≤ s.current)]
      simp

theorem stringLoopF_ascii :
    ∀ fuel (s : Scanner), asciiOnly s.source → s.current ≤ s.source.length →
      s.source.length - s.current < fuel →
      stringLoopF fuel s =
        some { s with
          current := s.current +
            ((s.source.drop s.current).takeWhile (fun c => decide (c ≠ '"'))).length,
          line := s.line +
            ((s.source.drop s.current).takeWhile (fun c => decide (c ≠ '"'))).count '\n' } := by
  intro fuel
  induction fuel with
  | zero => intro s _ _ hf; omega
  | succ n ih =>
    intro s ha hc hf
    have hb : byteLen s.source = s.source.length := ascii_byteLen ha
    by_cases hlt : s.current < s.source.length
    · rw [stringLoopF_succ_peek (Scanner.peek_lt hb hlt)]
      by_cases hd : s.source[s.current] = '"'
      · rw [if_neg (by simp [hd])]
        rw [List.drop_eq_getElem_cons hlt, List.takeWhile_cons,
          if_neg (by simp [hd])]
        simp
      · rw [if_pos ⟨hd, Scanner.is_at_end_false hb hlt⟩]
        by_cases hnl : s.source[s.current] = '\n'
        · rw [if_pos hnl]
          rw [Scanner.advance_lt
            (show ({ s with line := s.line + 1 } : Scanner).current <
              ({ s with line := s.line + 1 } : Scanner).source.length from hlt)]
          show stringLoopF n { s with current := s.current + 1, line := s.line + 1 } = _
          have ih2 := ih { s with current := s.current + 1, line := s.line + 1 } ha
            (show s.current + 1 ≤ s.source.length from hlt)
            (show s.source.length - (s.current + 1) < n by omega)
          rw [ih2]
          simp only [Option.some_inj, Scanner.mk.injEq, true_and, and_true]
          rw [List.drop_eq_getElem_cons hlt, List.takeWhile_cons,
            if_pos (by simpa using hd)]
          rw [hnl]
          simp only [List.length_cons, List.count_cons_self]
          constructor
          · omega
          · omega
        · rw [if_neg hnl]
          rw [Scanner.advance_lt hlt]
          show stringLoopF n { s with current := s.current + 1 } = _
          have ih2 := ih { s with current := s.current + 1 } ha
            (show s.current + 1 ≤ s.source.length from hlt)
            (show s.source.length - (s.current + 1) < n by omega)
          rw [ih2]
          simp only [Option.some_inj, Scanner.mk.injEq, true_and, and_true]
          rw [List.drop_eq_getElem_cons hlt, List.takeWhile_cons,
            if_pos (by simpa using hd)]
          have hcnt : (s.source[s.current] :: (s.source.drop (s.current + 1)).takeWhile
              (fun c => decide (c ≠ '"'))).count '\n' =
              ((s.source.drop (s.current + 1)).takeWhile
                (fun c => decide (c ≠ '"'))).count '\n' := by
            rw [List.count_cons]
            simp [hnl]
          rw [hcnt]
          simp only [List.length_cons]
          constructor
          · omega
          · trivial
    · rw [stringLoopF_succ_peek (Scanner.peek_ge (by omega))]
      rw [if_neg (by
        rw [Scanner.is_at_end_true (by omega)]
        simp)]
      rw [List.drop_eq_nil_of_le (by omega : s.source.length ≤ s.current)]
      simp

/-! ## Segments: the decomposition of a source into consumed spans -/


theorem segsText_cons (sg : Seg) (rest : List Seg) :
    segsText (sg :: rest) = sg.text ++ segsText rest := by
  simp [segsText]

theorem segsTokens_cons (sg : Seg) (rest : List Seg) :
    segsTokens (sg :: rest) = (match sg.tok with
      | some t => t :: segsTokens rest
      | Option.none => segsTokens rest) := by
  cases h : sg.tok <;> simp [segsTokens, List.filterMap_cons, h]

theorem segsOK_no_eof : ∀ (line : Nat) (segs : List Seg), segsOK line segs →
    ∀ t ∈ segsTokens segs, t.token_type ≠ TokenType.eof := by
  intro line segs
  induction segs generalizing line with
  | nil => intro _ t ht; simp [segsTokens] at ht
  | cons sg rest ih =>
    intro hok t ht
    obtain ⟨h1, h2⟩ := hok
    rw [segsTokens_cons] at ht
    cases hsg : sg.tok with
    | none =>
      rw [hsg] at ht
      exact ih _ h2 t ht
    | some t0 =>
      rw [hsg] at ht
      rw [hsg] at h1
      rcases List.mem_cons.mp ht with rfl | ht
      · exact h1.2.2
      · exact ih _ h2 t ht

/-! ## Slice helpers -/

theorem sliceCC_trans {src : List Char} {a m b : Nat} (h1 : a ≤ m) (h2 : m ≤ b) :
    sliceCC src a b = sliceCC src a m ++ sliceCC src m b := by
  unfold sliceCC
  have hsum : b - a = (m - a) + (b - m) := by omega
  rw [hsum, List.take_add]
  congr 1
  rw [List.drop_drop]
  have : a + (m - a) = m := by omega
  rw [this]

theorem sliceCC_takeWhile (src : List Char) (a : Nat) (pr : Char → Bool) :
    sliceCC src a (a + ((src.drop a).takeWhile pr).length) = (src.drop a).takeWhile pr := by
  unfold sliceCC
  rw [Nat.add_sub_cancel_left]
  exact take_length_takeWhile pr (src.drop a)

theorem sliceCC_to_end (src : List Char) (a : Nat) :
    sliceCC src a src.length = src.drop a := by
  unfold sliceCC
  apply List.take_of_length_le
  rw [List.length_drop]

theorem countNL_append (l1 l2 : List Char) :
    countNL (l1 ++ l2) = countNL l1 + countNL l2 := by
  simp [countNL, List.count_append]

/-- When some element of `l` fails the predicate, `takeWhile` stops
strictly inside `l`. -/
theorem takeWhile_length_lt {pr : Char → Bool} {l : List Char} {x : Char}
    (hx : x ∈ l) (hpx : pr x = false) : (l.takeWhile pr).length < l.length := by
  by_contra hle
  have hlen : (l.takeWhile pr).length = l.length :=
    le_antisymm (takeWhile_length_le _ _) (not_lt.mp hle)
  have heq : l.takeWhile pr = l := by
    rw [← take_length_takeWhile pr l, hlen, List.take_length]
  have : pr x = true := List.mem_takeWhile_imp (heq ▸ hx)
  rw [this] at hpx
  exact Bool.noConfusion hpx

theorem getElem_after_takeWhile {pr : Char → Bool} {l : List Char}
    (h : (l.takeWhile pr).length < l.length) :
    pr l[(l.takeWhile pr).length] = false := by
  obtain ⟨c, hc, hpc⟩ := getElem?_length_takeWhile pr l h
  rw [List.getElem?_eq_getElem h] at hc
  rw [Option.some_inj.mp hc]
  exact hpc

/-! ## Facts about `parseF64Ok` on the reachable number lexemes -/

theorem is_digit_ne_dot {c : Char} (h : is_digit c = true) : c ≠ '.' := by
  intro he
  subst he
  simp [is_digit] at h

theorem digits_count_dot {l : List Char} (h : ∀ c ∈ l, is_digit c = true) :
    l.count '.' = 0 := by
  rw [List.count_eq_zero]
  intro hmem
  exact absurd rfl (is_digit_ne_dot (h _ hmem))

theorem parseF64Ok_digits {l : List Char} (hne : l ≠ [])
    (h : ∀ c ∈ l, is_digit c = true) : parseF64Ok l = true := by
  unfold parseF64Ok
  simp only [Bool.and_eq_true, decide_eq_true_eq]
  refine ⟨⟨?_, ?_⟩, ?_⟩
  · cases l with
    | nil => exact absurd rfl hne
    | cons c cs => simp [List.any_cons, h c (by simp)]
  · rw [List.all_eq_true]
    intro c hc
    simp [h c hc]
  · rw [digits_count_dot h]
    omega

theorem parseF64Ok_frac {d1 d2 : List Char} (hne : d1 ≠ [])
    (h1 : ∀ c ∈ d1, is_digit c = true) (h2 : ∀ c ∈ d2, is_digit c = true) :
    parseF64Ok (d1 ++ '.' :: d2) = true := by
  unfold parseF64Ok
  simp only [Bool.and_eq_true, decide_eq_true_eq]
  refine ⟨⟨?_, ?_⟩, ?_⟩
  · rw [List.any_eq_true]
    cases d1 with
    | nil => exact absurd rfl hne
    | cons c cs => exact ⟨c, by simp, h1 c (by simp)⟩
  · rw [List.all_eq_true]
    intro c hc
    rcases List.mem_append.mp hc with hc | hc
    · simp [h1 c hc]
    · rcases List.mem_cons.mp hc with rfl | hc
      · simp
      · simp [h2 c hc]
  · rw [List.count_append, digits_count_dot h1, List.count_cons_self, digits_count_dot h2]
/-! ## Exact behaviour of the literal/identifier scanners on ASCII sources -/

theorem Scanner.identifier_eq {s : Scanner} {k : Nat}
    (hl : identLoopF s.fuel s = some { s with current := k }) :
    s.identifier =
      match byteSliceOpt s.source s.start k with
      | Option.none => Option.none
      | some text =>
        Scanner.add_token { s with current := k } ((keywordOf text).getD .identifier) := by
  unfold Scanner.identifier
  rw [hl]

theorem Scanner.identifier_ascii {s : Scanner} (ha : asciiOnly s.source)
    (hsc : s.current = s.start + 1) (hlt : s.start < s.source.length)
    (hd : is_alpha s.source[s.start] = true) :
    s.identifier = some { s with
      current := s.start + ((s.source.drop s.start).takeWhile is_alpha_numeric).length,
      tokens := s.tokens ++
        [⟨(keywordOf ((s.source.drop s.start).takeWhile is_alpha_numeric)).getD .identifier,
          (s.source.drop s.start).takeWhile is_alpha_numeric, Literal.none, s.line⟩] } := by
  have hb : byteLen s.source = s.source.length := ascii_byteLen ha
  have hfuel : s.fuel = s.source.length + 1 := by unfold Scanner.fuel; rw [hb]
  have hcons : (s.source.drop s.start).takeWhile is_alpha_numeric =
      s.source[s.start] :: (s.source.drop (s.start + 1)).takeWhile is_alpha_numeric := by
    rw [List.drop_eq_getElem_cons hlt, List.takeWhile_cons,
      if_pos (by simp [is_alpha_numeric, hd])]
  have hlen1 : ((s.source.drop (s.start + 1)).takeWhile is_alpha_numeric).length ≤
      s.source.length - (s.start + 1) := by
    have := takeWhile_length_le is_alpha_numeric (s.source.drop (s.start + 1))
    rw [List.length_drop] at this
    exact this
  have hloop := identLoopF_ascii s.fuel s ha (by omega) (by rw [hfuel]; omega)
  rw [hsc] at hloop
  rw [Scanner.identifier_eq hloop]
  have hk : s.start + 1 + ((s.source.drop (s.start + 1)).takeWhile is_alpha_numeric).length =
      s.start + ((s.source.drop s.start).takeWhile is_alpha_numeric).length := by
    rw [hcons]
    simp only [List.length_cons]
    omega
  rw [hk]
  rw [byteSliceOpt_ascii ha (by omega) (by rw [hcons]; simp only [List.length_cons]; omega)]
  show Scanner.add_token
      { s with current := s.start + ((s.source.drop s.start).takeWhile is_alpha_numeric).length }
      ((keywordOf (sliceCC s.source s.start
        (s.start + ((s.source.drop s.start).takeWhile is_alpha_numeric).length))).getD
          .identifier) = _
  rw [sliceCC_takeWhile]
  rw [@Scanner.add_token_ascii
    { s with current := s.start + ((s.source.drop s.start).takeWhile is_alpha_numeric).length }
    ((keywordOf ((s.source.drop s.start).takeWhile is_alpha_numeric)).getD .identifier)
    ha
    (by show s.start ≤ s.start + ((s.source.drop s.start).takeWhile is_alpha_numeric).length
        omega)
    (by show s.start + ((s.source.drop s.start).takeWhile is_alpha_numeric).length ≤
          s.source.length
        rw [hcons]; simp only [List.length_cons]; omega)]
  dsimp only
  rw [sliceCC_takeWhile]
theorem Scanner.string_eq {s : Scanner} {k l : Nat}
    (hl : stringLoopF s.fuel s = some { s with current := k, line := l }) :
    s.string =
      if ({ s with current := k, line := l } : Scanner).is_at_end then
        Scanner.add_token { s with current := k, line := l } .unknown
      else
        match Scanner.advance { s with current := k, line := l } with
        | Option.none => Option.none
        | some (_, s2) =>
          match byteSliceOpt s2.source (s2.start + 1) (s2.current - 1) with
          | Option.none => Option.none
          | some value => Scanner.add_token_with_literal s2 .string (Literal.str value) := by
  unfold Scanner.string
  rw [hl]

theorem Scanner.string_term_ascii {s : Scanner} {body : List Char} (ha : asciiOnly s.source)
    (hsc : s.current = s.start + 1) (hlt : s.start < s.source.length)
    (hq : s.source[s.start] = '"')
    (hbody : body = (s.source.drop (s.start + 1)).takeWhile (fun c => decide (c ≠ '"')))
    (hclose : '"' ∈ s.source.drop (s.start + 1)) :
    s.string = some { s with
      current := s.start + 1 + body.length + 1,
      line := s.line + countNL body,
      tokens := s.tokens ++ [⟨TokenType.string, '"' :: body ++ ['"'], Literal.str body,
        s.line + countNL body⟩] } ∧
    sliceCC s.source s.start (s.start + 1 + body.length + 1) = '"' :: body ++ ['"'] ∧
    countNL ('"' :: body ++ ['"']) = countNL body := by
  have hb : byteLen s.source = s.source.length := ascii_byteLen ha
  have hfuel : s.fuel = s.source.length + 1 := by unfold Scanner.fuel; rw [hb]
  have hblt : body.length < (s.source.drop (s.start + 1)).length := by
    rw [hbody]
    exact takeWhile_length_lt hclose (by decide)
  have hq0 : s.start + 1 + body.length < s.source.length := by
    rw [List.length_drop] at hblt
    omega
  have hquote : s.source[s.start + 1 + body.length] = '"' := by
    have h1 : ((s.source.drop (s.start + 1)).takeWhile (fun c => decide (c ≠ '"'))).length <
        (s.source.drop (s.start + 1)).length := by rw [← hbody]; exact hblt
    obtain ⟨c, hc, hpc⟩ :=
      getElem?_length_takeWhile (fun c => decide (c ≠ '"')) (s.source.drop (s.start + 1)) h1
    rw [← hbody] at hc
    rw [List.getElem?_drop] at hc
    rw [List.getElem?_eq_getElem (show s.start + 1 + body.length < s.source.length from hq0)]
      at hc
    have hcq : c = '"' := by simpa using hpc
    rw [Option.some_inj.mp hc, hcq]
  have hval : sliceCC s.source (s.start + 1) (s.start + 1 + body.length) = body := by
    rw [hbody]
    exact sliceCC_takeWhile s.source (s.start + 1) (fun c => decide (c ≠ '"'))
  have hlex : sliceCC s.source s.start (s.start + 1 + body.length + 1) =
      '"' :: body ++ ['"'] := by
    rw [sliceCC_trans (show s.start ≤ s.start + 1 by omega)
      (show s.start + 1 ≤ s.start + 1 + body.length + 1 by omega)]
    rw [sliceCC_singleton hlt, hq]
    rw [sliceCC_trans (show s.start + 1 ≤ s.start + 1 + body.length by omega)
      (show s.start + 1 + body.length ≤ s.start + 1 + body.length + 1 by omega)]
    rw [hval]
    rw [sliceCC_singleton hq0, hquote]
    rfl
  refine ⟨?_, hlex, ?_⟩
  case refine_2 =>
    unfold countNL
    simp [List.count_append, List.count_cons]
  have hloop := stringLoopF_ascii s.fuel s ha (by omega) (by rw [hfuel]; omega)
  rw [hsc, ← hbody] at hloop
  rw [Scanner.string_eq hloop]
  rw [Scanner.is_at_end_false
    (show byteLen ({ s with current := s.start + 1 + body.length, line := s.line + body.count '\n' } : Scanner).source = ({ s with current := s.start + 1 + body.length, line := s.line + body.count '\n' } : Scanner).source.length from hb)
    (show s.start + 1 + body.length < s.source.length from hq0)]
  simp only [Bool.false_eq_true, if_false]
  rw [@Scanner.advance_lt { s with current := s.start + 1 + body.length, line := s.line + body.count '\n' } (show s.start + 1 + body.length < s.source.length from hq0)]
  show (match byteSliceOpt s.source (s.start + 1) (s.start + 1 + body.length) with
    | Option.none => Option.none
    | some value => Scanner.add_token_with_literal { s with current := s.start + 1 + body.length + 1, line := s.line + body.count '\n' } TokenType.string (Literal.str value)) = _
  rw [byteSliceOpt_ascii ha (by omega) (by omega)]
  rw [hval]
  show Scanner.add_token_with_literal { s with current := s.start + 1 + body.length + 1, line := s.line + body.count '\n' } TokenType.string (Literal.str body) = _
  rw [@Scanner.add_token_with_literal_ascii
    { s with current := s.start + 1 + body.length + 1, line := s.line + body.count '\n' }
    TokenType.string (Literal.str body) ha
    (by show s.start ≤ s.start + 1 + body.length + 1
        omega)
    (by show s.start + 1 + body.length + 1 ≤ s.source.length
        omega)]
  dsimp only
  rw [hlex]
  rfl

theorem Scanner.string_unterm_ascii {s : Scanner} (ha : asciiOnly s.source)
    (hsc : s.current = s.start + 1) (hlt : s.start < s.source.length)
    (hq : s.source[s.start] = '"')
    (hno : '"' ∉ s.source.drop (s.start + 1)) :
    (s.string = some { s with
      current := s.source.length,
      line := s.line + countNL (s.source.drop (s.start + 1)),
      tokens := s.tokens ++ [⟨TokenType.unknown, s.source.drop s.start, Literal.none,
        s.line + countNL (s.source.drop (s.start + 1))⟩] }) ∧
    countNL (s.source.drop s.start) = countNL (s.source.drop (s.start + 1)) := by
  refine ⟨?_, ?_⟩
  case refine_2 =>
    rw [List.drop_eq_getElem_cons hlt, hq]
    unfold countNL
    rw [List.count_cons]
    simp
  have hb : byteLen s.source = s.source.length := ascii_byteLen ha
  have hfuel : s.fuel = s.source.length + 1 := by unfold Scanner.fuel; rw [hb]
  have hall : (s.source.drop (s.start + 1)).takeWhile (fun c => decide (c ≠ '"')) =
      s.source.drop (s.start + 1) := by
    apply takeWhile_eq_of_all
    intro c hc
    simp only [decide_eq_true_eq]
    intro he
    exact hno (he ▸ hc)
  have hloop := stringLoopF_ascii s.fuel s ha (by omega) (by rw [hfuel]; omega)
  rw [hsc, hall] at hloop
  rw [List.length_drop] at hloop
  have hk : s.start + 1 + (s.source.length - (s.start + 1)) = s.source.length := by omega
  rw [hk] at hloop
  rw [Scanner.string_eq hloop]
  rw [@Scanner.is_at_end_true { s with current := s.source.length, line := s.line + (s.source.drop (s.start + 1)).count '\n' } (le_of_eq hb)]
  rw [if_pos rfl]
  rw [@Scanner.add_token_ascii
    { s with current := s.source.length, line := s.line + (s.source.drop (s.start + 1)).count '\n' }
    TokenType.unknown ha
    (by show s.start ≤ s.source.length
        omega)
    (by show s.source.length ≤ s.source.length
        exact le_refl _)]
  dsimp only
  rw [sliceCC_to_end]
  rfl

theorem numberLexemeSpec_frac {src : List Char} {p : Nat} {c2 : Char}
    (h1 : src[p + ((src.drop p).takeWhile is_digit).length]? = some '.')
    (h2 : src[p + ((src.drop p).takeWhile is_digit).length + 1]? = some c2)
    (hd : is_digit c2 = true) :
    numberLexemeSpec src p =
      (src.drop p).takeWhile is_digit ++
        '.' :: (src.drop (p + ((src.drop p).takeWhile is_digit).length + 1)).takeWhile
          is_digit := by
  unfold numberLexemeSpec
  rw [h1, h2]
  show (if ('.' = '.' ∧ is_digit c2 = true) then
      (src.drop p).takeWhile is_digit ++
        '.' :: (src.drop (p + ((src.drop p).takeWhile is_digit).length + 1)).takeWhile is_digit
    else (src.drop p).takeWhile is_digit) = _
  rw [if_pos ⟨rfl, hd⟩]

theorem numberLexemeSpec_endq {src : List Char} {p : Nat}
    (h1 : src[p + ((src.drop p).takeWhile is_digit).length]? = Option.none) :
    numberLexemeSpec src p = (src.drop p).takeWhile is_digit := by
  unfold numberLexemeSpec
  rw [h1]

theorem numberLexemeSpec_not_dot {src : List Char} {p : Nat} {c1 : Char}
    (h1 : src[p + ((src.drop p).takeWhile is_digit).length]? = some c1)
    (hne : c1 ≠ '.') :
    numberLexemeSpec src p = (src.drop p).takeWhile is_digit := by
  unfold numberLexemeSpec
  cases h2 : src[p + ((src.drop p).takeWhile is_digit).length + 1]? with
  | none => rw [h1]
  | some c2 =>
    rw [h1]
    show (if (c1 = '.' ∧ is_digit c2 = true) then
        (src.drop p).takeWhile is_digit ++
          '.' :: (src.drop (p + ((src.drop p).takeWhile is_digit).length + 1)).takeWhile
            is_digit
      else (src.drop p).takeWhile is_digit) = _
    rw [if_neg (fun hco => hne hco.1)]

theorem numberLexemeSpec_dot_nodigit {src : List Char} {p : Nat} {c2 : Char}
    (h1 : src[p + ((src.drop p).takeWhile is_digit).length]? = some '.')
    (h2 : src[p + ((src.drop p).takeWhile is_digit).length + 1]? = some c2)
    (hnd : is_digit c2 = false) :
    numberLexemeSpec src p = (src.drop p).takeWhile is_digit := by
  unfold numberLexemeSpec
  rw [h1, h2]
  show (if ('.' = '.' ∧ is_digit c2 = true) then
      (src.drop p).takeWhile is_digit ++
        '.' :: (src.drop (p + ((src.drop p).takeWhile is_digit).length + 1)).takeWhile is_digit
    else (src.drop p).takeWhile is_digit) = _
  rw [if_neg (by simp [hnd])]

theorem numberLexemeSpec_dot_endq {src : List Char} {p : Nat}
    (h1 : src[p + ((src.drop p).takeWhile is_digit).length]? = some '.')
    (h2 : src[p + ((src.drop p).takeWhile is_digit).length + 1]? = Option.none) :
    numberLexemeSpec src p = (src.drop p).takeWhile is_digit := by
  unfold numberLexemeSpec
  rw [h1, h2]

theorem Scanner.numberFrac_peek {s1 : Scanner} {c1 : Char} (hp : s1.peek = some c1) :
    s1.numberFrac =
      if c1 = '.' then
        match s1.peek_next with
        | Option.none => Option.none
        | some c2 =>
          if is_digit c2 then
            match s1.advance with
            | Option.none => Option.none
            | some (_, s2) => digitsLoopF s2.fuel s2
          else some s1
      else some s1 := by
  unfold Scanner.numberFrac
  rw [hp]

theorem Scanner.numberFrac_not_dot {s1 : Scanner} {c1 : Char} (hp : s1.peek = some c1)
    (hne : c1 ≠ '.') : s1.numberFrac = some s1 := by
  rw [Scanner.numberFrac_peek hp, if_neg hne]

theorem Scanner.numberFrac_dot_nodigit {s1 : Scanner} {c2 : Char} (hp : s1.peek = some '.')
    (hq : s1.peek_next = some c2) (hnd : is_digit c2 = false) :
    s1.numberFrac = some s1 := by
  rw [Scanner.numberFrac_peek hp, if_pos rfl, hq]
  show (if is_digit c2 then
      match s1.advance with
      | Option.none => Option.none
      | some (_, s2) => digitsLoopF s2.fuel s2
    else some s1) = some s1
  rw [if_neg (by simp [hnd])]

theorem Scanner.numberFrac_dot_digit {s1 : Scanner} {c2 : Char} (hp : s1.peek = some '.')
    (hq : s1.peek_next = some c2) (hdig : is_digit c2 = true)
    (hlt : s1.current < s1.source.length) :
    s1.numberFrac = digitsLoopF (Scanner.fuel { s1 with current := s1.current + 1 })
      { s1 with current := s1.current + 1 } := by
  rw [Scanner.numberFrac_peek hp, if_pos rfl, hq]
  show (if is_digit c2 then
      match s1.advance with
      | Option.none => Option.none
      | some (_, s2) => digitsLoopF s2.fuel s2
    else some s1) = _
  rw [if_pos hdig, Scanner.advance_lt hlt]

theorem Scanner.number_eq {s : Scanner} {k : Nat}
    (hl : digitsLoopF s.fuel s = some { s with current := k }) :
    s.number =
      match Scanner.numberFrac { s with current := k } with
      | Option.none => Option.none
      | some s2 =>
        match byteSliceOpt s2.source s2.start s2.current with
        | Option.none => Option.none
        | some text =>
          if parseF64Ok text then s2.add_token_with_literal .number (Literal.num text)
          else Option.none := by
  unfold Scanner.number
  rw [hl]
theorem countNL_digits {l : List Char} (h : ∀ c ∈ l, is_digit c = true) :
    countNL l = 0 := by
  unfold countNL
  rw [List.count_eq_zero]
  intro hm
  exact absurd (h _ hm) (by decide)

theorem countNL_alnum {l : List Char} (h : ∀ c ∈ l, is_alpha_numeric c = true) :
    countNL l = 0 := by
  unfold countNL
  rw [List.count_eq_zero]
  intro hm
  exact absurd (h _ hm) (by decide)

theorem Scanner.number_ascii_stay {s : Scanner} (ha : asciiOnly s.source)
    (hsc : s.current = s.start + 1) (hlt : s.start < s.source.length)
    (hd : is_digit s.source[s.start] = true)
    (hF : Scanner.numberFrac { s with current := s.start + ((s.source.drop s.start).takeWhile is_digit).length } =
      some { s with current := s.start + ((s.source.drop s.start).takeWhile is_digit).length })
    (hL : numberLexemeSpec s.source s.start = (s.source.drop s.start).takeWhile is_digit) :
    s.number = some { s with
      current := s.start + (numberLexemeSpec s.source s.start).length,
      tokens := s.tokens ++ [⟨TokenType.number, numberLexemeSpec s.source s.start,
        Literal.num (numberLexemeSpec s.source s.start), s.line⟩] } ∧
      sliceCC s.source s.start (s.start + (numberLexemeSpec s.source s.start).length) =
        numberLexemeSpec s.source s.start ∧
      countNL (numberLexemeSpec s.source s.start) = 0 ∧
      numberLexemeSpec s.source s.start ≠ [] := by
  have hb : byteLen s.source = s.source.length := ascii_byteLen ha
  have hfuel : s.fuel = s.source.length + 1 := by unfold Scanner.fuel; rw [hb]
  have hcons : (s.source.drop s.start).takeWhile is_digit =
      s.source[s.start] :: (s.source.drop (s.start + 1)).takeWhile is_digit := by
    rw [List.drop_eq_getElem_cons hlt, List.takeWhile_cons, if_pos hd]
  have hlenD : ((s.source.drop (s.start + 1)).takeWhile is_digit).length ≤
      s.source.length - (s.start + 1) := by
    have := takeWhile_length_le is_digit (s.source.drop (s.start + 1))
    rw [List.length_drop] at this
    exact this
  have hqle : s.start + ((s.source.drop s.start).takeWhile is_digit).length ≤ s.source.length := by
    rw [hcons]
    simp only [List.length_cons]
    omega
  rw [hL]
  refine ⟨?_, sliceCC_takeWhile s.source s.start is_digit,
    countNL_digits (fun c hc => List.mem_takeWhile_imp hc),
    by rw [hcons]; simp⟩
  have hloop := digitsLoopF_ascii s.fuel s ha (by omega) (by rw [hfuel]; omega)
  rw [hsc] at hloop
  have hq : s.start + 1 + ((s.source.drop (s.start + 1)).takeWhile is_digit).length =
      s.start + ((s.source.drop s.start).takeWhile is_digit).length := by
    rw [hcons]
    simp only [List.length_cons]
    omega
  rw [hq] at hloop
  rw [Scanner.number_eq hloop, hF]
  show (match byteSliceOpt s.source s.start (s.start + ((s.source.drop s.start).takeWhile is_digit).length) with
    | Option.none => Option.none
    | some text =>
      if parseF64Ok text then
        Scanner.add_token_with_literal { s with current := s.start + ((s.source.drop s.start).takeWhile is_digit).length }
          .number (Literal.num text)
      else Option.none) = _
  rw [byteSliceOpt_ascii ha (by omega) hqle]
  rw [sliceCC_takeWhile]
  show (if parseF64Ok ((s.source.drop s.start).takeWhile is_digit) then
      Scanner.add_token_with_literal { s with current := s.start + ((s.source.drop s.start).takeWhile is_digit).length }
        .number (Literal.num ((s.source.drop s.start).takeWhile is_digit))
    else Option.none) = _
  rw [if_pos (parseF64Ok_digits (by rw [hcons]; simp)
    (fun c hc => List.mem_takeWhile_imp hc))]
  rw [@Scanner.add_token_with_literal_ascii { s with current := s.start + ((s.source.drop s.start).takeWhile is_digit).length }
    .number (Literal.num ((s.source.drop s.start).takeWhile is_digit)) ha
    (by show s.start ≤ s.start + ((s.source.drop s.start).takeWhile is_digit).length
        omega)
    (by show s.start + ((s.source.drop s.start).takeWhile is_digit).length ≤ s.source.length
        exact hqle)]
  dsimp only
  rw [sliceCC_takeWhile]

theorem Scanner.number_ascii {s : Scanner} (ha : asciiOnly s.source)
    (hsc : s.current = s.start + 1) (hlt : s.start < s.source.length)
    (hd : is_digit s.source[s.start] = true) :
    s.number = some { s with
      current := s.start + (numberLexemeSpec s.source s.start).length,
      tokens := s.tokens ++ [⟨TokenType.number, numberLexemeSpec s.source s.start,
        Literal.num (numberLexemeSpec s.source s.start), s.line⟩] } ∧
      sliceCC s.source s.start (s.start + (numberLexemeSpec s.source s.start).length) =
        numberLexemeSpec s.source s.start ∧
      countNL (numberLexemeSpec s.source s.start) = 0 ∧
      numberLexemeSpec s.source s.start ≠ [] := by
  have hb : byteLen s.source = s.source.length := ascii_byteLen ha
  have hfuel : s.fuel = s.source.length + 1 := by unfold Scanner.fuel; rw [hb]
  have hcons : (s.source.drop s.start).takeWhile is_digit =
      s.source[s.start] :: (s.source.drop (s.start + 1)).takeWhile is_digit := by
    rw [List.drop_eq_getElem_cons hlt, List.takeWhile_cons, if_pos hd]
  have hlenD : ((s.source.drop (s.start + 1)).takeWhile is_digit).length ≤
      s.source.length - (s.start + 1) := by
    have := takeWhile_length_le is_digit (s.source.drop (s.start + 1))
    rw [List.length_drop] at this
    exact this
  have hqle : s.start + ((s.source.drop s.start).takeWhile is_digit).length ≤ s.source.length := by
    rw [hcons]
    simp only [List.length_cons]
    omega
  by_cases hqlt : s.start + ((s.source.drop s.start).takeWhile is_digit).length < s.source.length
  case neg =>
    refine Scanner.number_ascii_stay ha hsc hlt hd ?_ ?_
    · exact Scanner.numberFrac_not_dot
        (Scanner.peek_ge (show byteLen s.source ≤ s.start + ((s.source.drop s.start).takeWhile is_digit).length by omega)) (by decide)
    · exact numberLexemeSpec_endq (List.getElem?_eq_none (by omega))
  case pos =>
    have hpeek : Scanner.peek { s with current := s.start + ((s.source.drop s.start).takeWhile is_digit).length } = some s.source[s.start + ((s.source.drop s.start).takeWhile is_digit).length] :=
      @Scanner.peek_lt { s with current := s.start + ((s.source.drop s.start).takeWhile is_digit).length } hb hqlt
    by_cases hdot : s.source[s.start + ((s.source.drop s.start).takeWhile is_digit).length] = '.'
    case neg =>
      refine Scanner.number_ascii_stay ha hsc hlt hd ?_ ?_
      · exact Scanner.numberFrac_not_dot hpeek hdot
      · exact numberLexemeSpec_not_dot (List.getElem?_eq_getElem hqlt) hdot
    case pos =>
      have hpeekDot : Scanner.peek { s with current := s.start + ((s.source.drop s.start).takeWhile is_digit).length } = some '.' := by
        rw [hpeek, hdot]
      have hg1 : s.source[s.start + ((s.source.drop s.start).takeWhile is_digit).length]? = some '.' := by
        rw [List.getElem?_eq_getElem hqlt, hdot]
      by_cases hq1lt : s.start + ((s.source.drop s.start).takeWhile is_digit).length + 1 < s.source.length
      case neg =>
        refine Scanner.number_ascii_stay ha hsc hlt hd ?_ ?_
        · exact Scanner.numberFrac_dot_nodigit hpeekDot
            (Scanner.peek_next_ge (show byteLen s.source ≤ s.start + ((s.source.drop s.start).takeWhile is_digit).length + 1 by omega)) (by decide)
        · exact numberLexemeSpec_dot_endq hg1 (List.getElem?_eq_none (by omega))
      case pos =>
        have hpeek2 : Scanner.peek_next { s with current := s.start + ((s.source.drop s.start).takeWhile is_digit).length } =
            some s.source[s.start + ((s.source.drop s.start).takeWhile is_digit).length + 1] := @Scanner.peek_next_lt { s with current := s.start + ((s.source.drop s.start).takeWhile is_digit).length } hb hq1lt
        by_cases hdig : is_digit s.source[s.start + ((s.source.drop s.start).takeWhile is_digit).length + 1] = true
        case neg =>
          refine Scanner.number_ascii_stay ha hsc hlt hd ?_ ?_
          · exact Scanner.numberFrac_dot_nodigit hpeekDot hpeek2
              (Bool.not_eq_true _ ▸ hdig)
          · exact numberLexemeSpec_dot_nodigit hg1 (List.getElem?_eq_getElem hq1lt)
              (Bool.not_eq_true _ ▸ hdig)
        case pos =>
          have hg2 : s.source[s.start + ((s.source.drop s.start).takeWhile is_digit).length + 1]? = some s.source[s.start + ((s.source.drop s.start).takeWhile is_digit).length + 1] :=
            List.getElem?_eq_getElem hq1lt
          have hF := Scanner.numberFrac_dot_digit hpeekDot hpeek2 hdig
            (show s.start + ((s.source.drop s.start).takeWhile is_digit).length < s.source.length from hqlt)
          have hfuel2 : Scanner.fuel { s with current := s.start + ((s.source.drop s.start).takeWhile is_digit).length + 1 } =
              s.source.length + 1 := by
            show byteLen s.source + 1 = s.source.length + 1
            omega
          have hK2le : ((s.source.drop (s.start + ((s.source.drop s.start).takeWhile is_digit).length + 1)).takeWhile is_digit).length ≤ s.source.length - (s.start + ((s.source.drop s.start).takeWhile is_digit).length + 1) := by
            have := takeWhile_length_le is_digit (s.source.drop (s.start + ((s.source.drop s.start).takeWhile is_digit).length + 1))
            rw [List.length_drop] at this
            exact this
          have hslice : sliceCC s.source s.start (s.start + ((s.source.drop s.start).takeWhile is_digit).length + 1 + ((s.source.drop (s.start + ((s.source.drop s.start).takeWhile is_digit).length + 1)).takeWhile is_digit).length) =
              (s.source.drop s.start).takeWhile is_digit ++ '.' :: (s.source.drop (s.start + ((s.source.drop s.start).takeWhile is_digit).length + 1)).takeWhile is_digit := by
            rw [sliceCC_trans (show s.start ≤ s.start + ((s.source.drop s.start).takeWhile is_digit).length by omega)
              (show s.start + ((s.source.drop s.start).takeWhile is_digit).length ≤ s.start + ((s.source.drop s.start).takeWhile is_digit).length + 1 + ((s.source.drop (s.start + ((s.source.drop s.start).takeWhile is_digit).length + 1)).takeWhile is_digit).length by omega)]
            rw [sliceCC_takeWhile]
            rw [sliceCC_trans (show s.start + ((s.source.drop s.start).takeWhile is_digit).length ≤ s.start + ((s.source.drop s.start).takeWhile is_digit).length + 1 by omega)
              (show s.start + ((s.source.drop s.start).takeWhile is_digit).length + 1 ≤ s.start + ((s.source.drop s.start).takeWhile is_digit).length + 1 + ((s.source.drop (s.start + ((s.source.drop s.start).takeWhile is_digit).length + 1)).takeWhile is_digit).length by omega)]
            rw [sliceCC_singleton hqlt, hdot]
            rw [sliceCC_takeWhile]
            rfl
          have harith : s.start + ((s.source.drop s.start).takeWhile is_digit ++ '.' :: (s.source.drop (s.start + ((s.source.drop s.start).takeWhile is_digit).length + 1)).takeWhile is_digit).length = s.start + ((s.source.drop s.start).takeWhile is_digit).length + 1 + ((s.source.drop (s.start + ((s.source.drop s.start).takeWhile is_digit).length + 1)).takeWhile is_digit).length := by
            simp only [List.length_append, List.length_cons]
            omega
          rw [numberLexemeSpec_frac hg1 hg2 hdig]
          refine ⟨?_, ?_, ?_, ?_⟩
          case refine_2 =>
            rw [harith]
            exact hslice
          case refine_3 =>
            rw [countNL_append]
            rw [countNL_digits (fun c hc => List.mem_takeWhile_imp hc)]
            have : countNL ('.' :: (s.source.drop (s.start + ((s.source.drop s.start).takeWhile is_digit).length + 1)).takeWhile is_digit) = countNL ((s.source.drop (s.start + ((s.source.drop s.start).takeWhile is_digit).length + 1)).takeWhile is_digit) := by
              unfold countNL
              rw [List.count_cons]
              simp
            rw [this, countNL_digits (fun c hc => List.mem_takeWhile_imp hc)]
          case refine_4 =>
            rw [hcons]
            simp
          case refine_1 =>
            have hloop2 := digitsLoopF_ascii (Scanner.fuel { s with current := s.start + ((s.source.drop s.start).takeWhile is_digit).length + 1 })
              { s with current := s.start + ((s.source.drop s.start).takeWhile is_digit).length + 1 } ha
              (show s.start + ((s.source.drop s.start).takeWhile is_digit).length + 1 ≤ s.source.length by omega)
              (by rw [hfuel2]
                  show s.source.length - (s.start + ((s.source.drop s.start).takeWhile is_digit).length + 1) < s.source.length + 1
                  omega)
            have hloop := digitsLoopF_ascii s.fuel s ha (by omega) (by rw [hfuel]; omega)
            rw [hsc] at hloop
            have hq : s.start + 1 +
                ((s.source.drop (s.start + 1)).takeWhile is_digit).length = s.start + ((s.source.drop s.start).takeWhile is_digit).length := by
              rw [hcons]
              simp only [List.length_cons]
              omega
            rw [hq] at hloop
            rw [Scanner.number_eq hloop, hF, hloop2]
            show (match byteSliceOpt s.source s.start (s.start + ((s.source.drop s.start).takeWhile is_digit).length + 1 + ((s.source.drop (s.start + ((s.source.drop s.start).takeWhile is_digit).length + 1)).takeWhile is_digit).length) with
              | Option.none => Option.none
              | some text =>
                if parseF64Ok text then
                  Scanner.add_token_with_literal { s with current := s.start + ((s.source.drop s.start).takeWhile is_digit).length + 1 + ((s.source.drop (s.start + ((s.source.drop s.start).takeWhile is_digit).length + 1)).takeWhile is_digit).length }
                    .number (Literal.num text)
                else Option.none) = _
            rw [byteSliceOpt_ascii ha (by omega) (by omega)]
            rw [hslice]
            show (if parseF64Ok ((s.source.drop s.start).takeWhile is_digit ++ '.' :: (s.source.drop (s.start + ((s.source.drop s.start).takeWhile is_digit).length + 1)).takeWhile is_digit) then
                Scanner.add_token_with_literal { s with current := s.start + ((s.source.drop s.start).takeWhile is_digit).length + 1 + ((s.source.drop (s.start + ((s.source.drop s.start).takeWhile is_digit).length + 1)).takeWhile is_digit).length }
                  .number (Literal.num ((s.source.drop s.start).takeWhile is_digit ++ '.' :: (s.source.drop (s.start + ((s.source.drop s.start).takeWhile is_digit).length + 1)).takeWhile is_digit))
              else Option.none) = _
            rw [if_pos (parseF64Ok_frac (by rw [hcons]; simp)
              (fun c hc => List.mem_takeWhile_imp hc)
              (fun c hc => List.mem_takeWhile_imp hc))]
            rw [@Scanner.add_token_with_literal_ascii { s with current := s.start + ((s.source.drop s.start).takeWhile is_digit).length + 1 + ((s.source.drop (s.start + ((s.source.drop s.start).takeWhile is_digit).length + 1)).takeWhile is_digit).length }
              .number (Literal.num ((s.source.drop s.start).takeWhile is_digit ++ '.' :: (s.source.drop (s.start + ((s.source.drop s.start).takeWhile is_digit).length + 1)).takeWhile is_digit)) ha
              (by show s.start ≤ s.start + ((s.source.drop s.start).takeWhile is_digit).length + 1 + ((s.source.drop (s.start + ((s.source.drop s.start).takeWhile is_digit).length + 1)).takeWhile is_digit).length
                  omega)
              (by show s.start + ((s.source.drop s.start).takeWhile is_digit).length + 1 + ((s.source.drop (s.start + ((s.source.drop s.start).takeWhile is_digit).length + 1)).takeWhile is_digit).length ≤ s.source.length
                  omega)]
            dsimp only
            rw [hslice]
            rw [harith]
example : scanTokens [] = some [⟨.eof, [], Literal.none, 1⟩] := by decide

example : scanTokens "!=".toList =
    some [⟨.bangEqual, ['!', '='], Literal.none, 1⟩, ⟨.eof, [], Literal.none, 1⟩] := by decide

example : scanTokens "123.".toList =
    some [⟨.number, ['1', '2', '3'], Literal.num ['1', '2', '3'], 1⟩,
      ⟨.dot, ['.'], Literal.none, 1⟩, ⟨.eof, [], Literal.none, 1⟩] := by decide

example : scanTokens ['é'] = Option.none := by decide

example : scanTokens "// comment\n123".toList =
    some [⟨.number, ['1', '2', '3'], Literal.num ['1', '2', '3'], 2⟩,
      ⟨.eof, [], Literal.none, 2⟩] := by decide
/-! ## One dispatch step of the scanner -/


theorem keywordOf_ne_eof {text : List Char} {tt : TokenType}
    (h : keywordOf text = some tt) : tt ≠ TokenType.eof := by
  unfold keywordOf at h
  by_cases hk1 : text = "and".toList
  · rw [if_pos hk1] at h
    cases h
    decide
  rw [if_neg hk1] at h
  by_cases hk2 : text = "class".toList
  · rw [if_pos hk2] at h
    cases h
    decide
  rw [if_neg hk2] at h
  by_cases hk3 : text = "else".toList
  · rw [if_pos hk3] at h
    cases h
    decide
  rw [if_neg hk3] at h
  by_cases hk4 : text = "false".toList
  · rw [if_pos hk4] at h
    cases h
    decide
  rw [if_neg hk4] at h
  by_cases hk5 : text = "for".toList
  · rw [if_pos hk5] at h
    cases h
    decide
  rw [if_neg hk5] at h
  by_cases hk6 : text = "fun".toList
  · rw [if_pos hk6] at h
    cases h
    decide
  rw [if_neg hk6] at h
  by_cases hk7 : text = "if".toList
  · rw [if_pos hk7] at h
    cases h
    decide
  rw [if_neg hk7] at h
  by_cases hk8 : text = "nil".toList
  · rw [if_pos hk8] at h
    cases h
    decide
  rw [if_neg hk8] at h
  by_cases hk9 : text = "or".toList
  · rw [if_pos hk9] at h
    cases h
    decide
  rw [if_neg hk9] at h
  by_cases hk10 : text = "print".toList
  · rw [if_pos hk10] at h
    cases h
    decide
  rw [if_neg hk10] at h
  by_cases hk11 : text = "return".toList
  · rw [if_pos hk11] at h
    cases h
    decide
  rw [if_neg hk11] at h
  by_cases hk12 : text = "super".toList
  · rw [if_pos hk12] at h
    cases h
    decide
  rw [if_neg hk12] at h
  by_cases hk13 : text = "this".toList
  · rw [if_pos hk13] at h
    cases h
    decide
  rw [if_neg hk13] at h
  by_cases hk14 : text = "true".toList
  · rw [if_pos hk14] at h
    cases h
    decide
  rw [if_neg hk14] at h
  by_cases hk15 : text = "var".toList
  · rw [if_pos hk15] at h
    cases h
    decide
  rw [if_neg hk15] at h
  by_cases hk16 : text = "while".toList
  · rw [if_pos hk16] at h
    cases h
    decide
  rw [if_neg hk16] at h
  exact Option.noConfusion h

theorem keywordOf_getD_ne_eof (text : List Char) :
    (keywordOf text).getD TokenType.identifier ≠ TokenType.eof := by
  cases h : keywordOf text with
  | none => decide
  | some tt =>
    rw [Option.getD_some]
    exact keywordOf_ne_eof h

theorem Scanner.scan_token_eq {s s1 : Scanner} {c : Char}
    (hadv : s.advance = some (c, s1)) :
    s.scan_token =
      (if c = '(' then s1.add_token .leftParen
      else if c = ')' then s1.add_token .rightParen
      else if c = '\x7b' then s1.add_token .leftBrace
      else if c = '\x7d' then s1.add_token .rightBrace
      else if c = ',' then s1.add_token .comma
      else if c = '.' then s1.add_token .dot
      else if c = '-' then s1.add_token .minus
      else if c = '+' then s1.add_token .plus
      else if c = ';' then s1.add_token .semicolon
      else if c = '*' then s1.add_token .star
      else if c = '!' then
        match s1.match_char '=' with
        | Option.none => Option.none
        | some (m, s2) => s2.add_token (if m then .bangEqual else .bang)
      else if c = '=' then
        match s1.match_char '=' with
        | Option.none => Option.none
        | some (m, s2) => s2.add_token (if m then .equalEqual else .equal)
      else if c = '<' then
        match s1.match_char '=' with
        | Option.none => Option.none
        | some (m, s2) => s2.add_token (if m then .lessEqual else .less)
      else if c = '>' then
        match s1.match_char '=' with
        | Option.none => Option.none
        | some (m, s2) => s2.add_token (if m then .greaterEqual else .greater)
      else if c = '/' then
        match s1.match_char '/' with
        | Option.none => Option.none
        | some (m, s2) => if m then commentLoopF s2.fuel s2 else s2.add_token .slash
      else if c = ' ' ∨ c = '\r' ∨ c = '\t' then some s1
      else if c = '\n' then some { s1 with line := s1.line + 1 }
      else if c = '"' then s1.string
      else if is_digit c then s1.number
      else if is_alpha c then s1.identifier
      else s1.add_token .unknown) := by
  unfold Scanner.scan_token
  rw [hadv]

set_option maxHeartbeats 3200000 in
theorem Scanner.scan_token_step {s : Scanner} (ha : asciiOnly s.source)
    (hst : s.start = s.current) (hlt : s.current < s.source.length) :
    ∃ t, s.scan_token = some t ∧ StepOK s t := by
  have hb : byteLen s.source = s.source.length := ascii_byteLen ha
  have hsl1 : sliceCC s.source s.current (s.current + 1) = [s.source[s.current]] :=
    sliceCC_singleton hlt
  have hTok : ∀ (tt : TokenType) (e : Nat), tt ≠ TokenType.eof →
      s.current < e → e ≤ s.source.length →
      countNL (sliceCC s.source s.current e) = 0 →
      ∃ t, Scanner.add_token { s with current := e } tt = some t ∧ StepOK s t := by
    intro tt e htt he1 he2 hnl
    refine ⟨_, @Scanner.add_token_ascii { s with current := e } tt ha
      (show s.start ≤ e by omega) (show e ≤ s.source.length from he2), ?_⟩
    unfold StepOK
    refine ⟨rfl, he1, he2, ?_, Or.inr
      ⟨⟨tt, sliceCC s.source s.start e, Literal.none, s.line⟩, rfl, ?_, ?_, htt⟩⟩
    · show s.line = s.line + countNL (sliceCC s.source s.current e)
      rw [hnl]
      omega
    · show sliceCC s.source s.start e = sliceCC s.source s.current e
      rw [hst]
    · show s.line = s.line + countNL (sliceCC s.source s.start e)
      rw [hst, hnl]
      omega
  rw [Scanner.scan_token_eq (Scanner.advance_lt hlt)]
  by_cases hc1 : s.source[s.current] = '('
  case pos =>
    rw [if_pos hc1]
    refine hTok TokenType.leftParen (s.current + 1) (by decide) (by omega) (by omega) ?_
    rw [hsl1, hc1]
    decide
  rw [if_neg hc1]
  by_cases hc2 : s.source[s.current] = ')'
  case pos =>
    rw [if_pos hc2]
    refine hTok TokenType.rightParen (s.current + 1) (by decide) (by omega) (by omega) ?_
    rw [hsl1, hc2]
    decide
  rw [if_neg hc2]
  by_cases hc3 : s.source[s.current] = '\x7b'
  case pos =>
    rw [if_pos hc3]
    refine hTok TokenType.leftBrace (s.current + 1) (by decide) (by omega) (by omega) ?_
    rw [hsl1, hc3]
    decide
  rw [if_neg hc3]
  by_cases hc4 : s.source[s.current] = '\x7d'
  case pos =>
    rw [if_pos hc4]
    refine hTok TokenType.rightBrace (s.current + 1) (by decide) (by omega) (by omega) ?_
    rw [hsl1, hc4]
    decide
  rw [if_neg hc4]
  by_cases hc5 : s.source[s.current] = ','
  case pos =>
    rw [if_pos hc5]
    refine hTok TokenType.comma (s.current + 1) (by decide) (by omega) (by omega) ?_
    rw [hsl1, hc5]
    decide
  rw [if_neg hc5]
  by_cases hc6 : s.source[s.current] = '.'
  case pos =>
    rw [if_pos hc6]
    refine hTok TokenType.dot (s.current + 1) (by decide) (by omega) (by omega) ?_
    rw [hsl1, hc6]
    decide
  rw [if_neg hc6]
  by_cases hc7 : s.source[s.current] = '-'
  case pos =>
    rw [if_pos hc7]
    refine hTok TokenType.minus (s.current + 1) (by decide) (by omega) (by omega) ?_
    rw [hsl1, hc7]
    decide
  rw [if_neg hc7]
  by_cases hc8 : s.source[s.current] = '+'
  case pos =>
    rw [if_pos hc8]
    refine hTok TokenType.plus (s.current + 1) (by decide) (by omega) (by omega) ?_
    rw [hsl1, hc8]
    decide
  rw [if_neg hc8]
  by_cases hc9 : s.source[s.current] = ';'
  case pos =>
    rw [if_pos hc9]
    refine hTok TokenType.semicolon (s.current + 1) (by decide) (by omega) (by omega) ?_
    rw [hsl1, hc9]
    decide
  rw [if_neg hc9]
  by_cases hc10 : s.source[s.current] = '*'
  case pos =>
    rw [if_pos hc10]
    refine hTok TokenType.star (s.current + 1) (by decide) (by omega) (by omega) ?_
    rw [hsl1, hc10]
    decide
  rw [if_neg hc10]
  by_cases hc11 : s.source[s.current] = '!'
  case pos =>
    rw [if_pos hc11]
    by_cases hnx : s.source[s.current + 1]? = some '='
    case pos =>
      obtain ⟨hlt2, heq2⟩ := List.getElem?_eq_some_iff.mp hnx
      rw [@Scanner.match_char_hit { s with current := s.current + 1 } '=' hb hlt2 heq2]
      show ∃ t, Scanner.add_token { s with current := s.current + 1 + 1 }
          (if true = true then TokenType.bangEqual else TokenType.bang) = some t ∧ StepOK s t
      rw [if_pos rfl]
      refine hTok TokenType.bangEqual (s.current + 1 + 1) (by decide) (by omega) (by omega) ?_
      rw [sliceCC_trans (show s.current ≤ s.current + 1 by omega)
        (show s.current + 1 ≤ s.current + 1 + 1 by omega)]
      rw [hsl1, hc11]
      rw [sliceCC_singleton hlt2, heq2]
      decide
    case neg =>
      have hmc : Scanner.match_char { s with current := s.current + 1 } '=' =
          some (false, { s with current := s.current + 1 }) := by
        by_cases hend : s.current + 1 < s.source.length
        · refine @Scanner.match_char_miss { s with current := s.current + 1 } '=' hb hend ?_
          show s.source[s.current + 1] ≠ '='
          intro he
          exact hnx (List.getElem?_eq_some_iff.mpr ⟨hend, he⟩)
        · exact @Scanner.match_char_end { s with current := s.current + 1 } '='
            (show byteLen s.source ≤ s.current + 1 by omega)
      rw [hmc]
      show ∃ t, Scanner.add_token { s with current := s.current + 1 }
          (if false = true then TokenType.bangEqual else TokenType.bang) = some t ∧ StepOK s t
      rw [if_neg (by decide)]
      refine hTok TokenType.bang (s.current + 1) (by decide) (by omega) (by omega) ?_
      rw [hsl1, hc11]
      decide
  rw [if_neg hc11]
  by_cases hc12 : s.source[s.current] = '='
  case pos =>
    rw [if_pos hc12]
    by_cases hnx : s.source[s.current + 1]? = some '='
    case pos =>
      obtain ⟨hlt2, heq2⟩ := List.getElem?_eq_some_iff.mp hnx
      rw [@Scanner.match_char_hit { s with current := s.current + 1 } '=' hb hlt2 heq2]
      show ∃ t, Scanner.add_token { s with current := s.current + 1 + 1 }
          (if true = true then TokenType.equalEqual else TokenType.equal) = some t ∧ StepOK s t
      rw [if_pos rfl]
      refine hTok TokenType.equalEqual (s.current + 1 + 1) (by decide) (by omega) (by omega) ?_
      rw [sliceCC_trans (show s.current ≤ s.current + 1 by omega)
        (show s.current + 1 ≤ s.current + 1 + 1 by omega)]
      rw [hsl1, hc12]
      rw [sliceCC_singleton hlt2, heq2]
      decide
    case neg =>
      have hmc : Scanner.match_char { s with current := s.current + 1 } '=' =
          some (false, { s with current := s.current + 1 }) := by
        by_cases hend : s.current + 1 < s.source.length
        · refine @Scanner.match_char_miss { s with current := s.current + 1 } '=' hb hend ?_
          show s.source[s.current + 1] ≠ '='
          intro he
          exact hnx (List.getElem?_eq_some_iff.mpr ⟨hend, he⟩)
        · exact @Scanner.match_char_end { s with current := s.current + 1 } '='
            (show byteLen s.source ≤ s.current + 1 by omega)
      rw [hmc]
      show ∃ t, Scanner.add_token { s with current := s.current + 1 }
          (if false = true then TokenType.equalEqual else TokenType.equal) = some t ∧ StepOK s t
      rw [if_neg (by decide)]
      refine hTok TokenType.equal (s.current + 1) (by decide) (by omega) (by omega) ?_
      rw [hsl1, hc12]
      decide
  rw [if_neg hc12]
  by_cases hc13 : s.source[s.current] = '<'
  case pos =>
    rw [if_pos hc13]
    by_cases hnx : s.source[s.current + 1]? = some '='
    case pos =>
      obtain ⟨hlt2, heq2⟩ := List.getElem?_eq_some_iff.mp hnx
      rw [@Scanner.match_char_hit { s with current := s.current + 1 } '=' hb hlt2 heq2]
      show ∃ t, Scanner.add_token { s with current := s.current + 1 + 1 }
          (if true = true then TokenType.lessEqual else TokenType.less) = some t ∧ StepOK s t
      rw [if_pos rfl]
      refine hTok TokenType.lessEqual (s.current + 1 + 1) (by decide) (by omega) (by omega) ?_
      rw [sliceCC_trans (show s.current ≤ s.current + 1 by omega)
        (show s.current + 1 ≤ s.current + 1 + 1 by omega)]
      rw [hsl1, hc13]
      rw [sliceCC_singleton hlt2, heq2]
      decide
    case neg =>
      have hmc : Scanner.match_char { s with current := s.current + 1 } '=' =
          some (false, { s with current := s.current + 1 }) := by
        by_cases hend : s.current + 1 < s.source.length
        · refine @Scanner.match_char_miss { s with current := s.current + 1 } '=' hb hend ?_
          show s.source[s.current + 1] ≠ '='
          intro he
          exact hnx (List.getElem?_eq_some_iff.mpr ⟨hend, he⟩)
        · exact @Scanner.match_char_end { s with current := s.current + 1 } '='
            (show byteLen s.source ≤ s.current + 1 by omega)
      rw [hmc]
      show ∃ t, Scanner.add_token { s with current := s.current + 1 }
          (if false = true then TokenType.lessEqual else TokenType.less) = some t ∧ StepOK s t
      rw [if_neg (by decide)]
      refine hTok TokenType.less (s.current + 1) (by decide) (by omega) (by omega) ?_
      rw [hsl1, hc13]
      decide
  rw [if_neg hc13]
  by_cases hc14 : s.source[s.current] = '>'
  case pos =>
    rw [if_pos hc14]
    by_cases hnx : s.source[s.current + 1]? = some '='
    case pos =>
      obtain ⟨hlt2, heq2⟩ := List.getElem?_eq_some_iff.mp hnx
      rw [@Scanner.match_char_hit { s with current := s.current + 1 } '=' hb hlt2 heq2]
      show ∃ t, Scanner.add_token { s with current := s.current + 1 + 1 }
          (if true = true then TokenType.greaterEqual else TokenType.greater) = some t ∧ StepOK s t
      rw [if_pos rfl]
      refine hTok TokenType.greaterEqual (s.current + 1 + 1) (by decide) (by omega) (by omega) ?_
      rw [sliceCC_trans (show s.current ≤ s.current + 1 by omega)
        (show s.current + 1 ≤ s.current + 1 + 1 by omega)]
      rw [hsl1, hc14]
      rw [sliceCC_singleton hlt2, heq2]
      decide
    case neg =>
      have hmc : Scanner.match_char { s with current := s.current + 1 } '=' =
          some (false, { s with current := s.current + 1 }) := by
        by_cases hend : s.current + 1 < s.source.length
        · refine @Scanner.match_char_miss { s with current := s.current + 1 } '=' hb hend ?_
          show s.source[s.current + 1] ≠ '='
          intro he
          exact hnx (List.getElem?_eq_some_iff.mpr ⟨hend, he⟩)
        · exact @Scanner.match_char_end { s with current := s.current + 1 } '='
            (show byteLen s.source ≤ s.current + 1 by omega)
      rw [hmc]
      show ∃ t, Scanner.add_token { s with current := s.current + 1 }
          (if false = true then TokenType.greaterEqual else TokenType.greater) = some t ∧ StepOK s t
      rw [if_neg (by decide)]
      refine hTok TokenType.greater (s.current + 1) (by decide) (by omega) (by omega) ?_
      rw [hsl1, hc14]
      decide
  rw [if_neg hc14]
  by_cases hc15 : s.source[s.current] = '/'
  case pos =>
    rw [if_pos hc15]
    by_cases hnx : s.source[s.current + 1]? = some '/'
    case pos =>
      obtain ⟨hlt2, heq2⟩ := List.getElem?_eq_some_iff.mp hnx
      rw [@Scanner.match_char_hit { s with current := s.current + 1 } '/' hb hlt2 heq2]
      show ∃ t, (if true = true then
          commentLoopF (Scanner.fuel { s with current := s.current + 1 + 1 })
            { s with current := s.current + 1 + 1 }
        else Scanner.add_token { s with current := s.current + 1 + 1 } TokenType.slash) =
          some t ∧ StepOK s t
      rw [if_pos rfl]
      have hcl := commentLoopF_ascii (Scanner.fuel { s with current := s.current + 1 + 1 })
        { s with current := s.current + 1 + 1 } ha
        (show s.current + 1 + 1 ≤ s.source.length by omega)
        (show s.source.length - (s.current + 1 + 1) <
            Scanner.fuel { s with current := s.current + 1 + 1 } by
          show s.source.length - (s.current + 1 + 1) < byteLen s.source + 1
          omega)
      refine ⟨_, hcl, ?_⟩
      have hK := takeWhile_length_le (fun c => decide (c ≠ '\n'))
        (s.source.drop (s.current + 1 + 1))
      rw [List.length_drop] at hK
      have hnoNL : '\n' ∉
          (s.source.drop (s.current + 1 + 1)).takeWhile (fun c => decide (c ≠ '\n')) :=
        fun hm => by simpa using List.mem_takeWhile_imp hm
      have hslC : sliceCC s.source s.current (s.current + 1 + 1 +
          ((s.source.drop (s.current + 1 + 1)).takeWhile (fun c => decide (c ≠ '\n'))).length) =
          '/' :: '/' ::
            (s.source.drop (s.current + 1 + 1)).takeWhile (fun c => decide (c ≠ '\n')) := by
        rw [sliceCC_trans (show s.current ≤ s.current + 1 by omega)
          (show s.current + 1 ≤ s.current + 1 + 1 +
            ((s.source.drop (s.current + 1 + 1)).takeWhile
              (fun c => decide (c ≠ '\n'))).length by omega)]
        rw [sliceCC_trans (show s.current + 1 ≤ s.current + 1 + 1 by omega)
          (show s.current + 1 + 1 ≤ s.current + 1 + 1 +
            ((s.source.drop (s.current + 1 + 1)).takeWhile
              (fun c => decide (c ≠ '\n'))).length by omega)]
        rw [hsl1, hc15]
        rw [sliceCC_singleton hlt2, heq2]
        rw [sliceCC_takeWhile]
        rfl
      have hcnt : countNL ('/' :: '/' ::
          (s.source.drop (s.current + 1 + 1)).takeWhile (fun c => decide (c ≠ '\n'))) = 0 := by
        unfold countNL
        refine List.count_eq_zero.mpr ?_
        intro hmem
        rcases List.mem_cons.mp hmem with h | hmem2
        · exact absurd h (by decide)
        rcases List.mem_cons.mp hmem2 with h | hmem3
        · exact absurd h (by decide)
        exact hnoNL hmem3
      unfold StepOK
      refine ⟨rfl, ?_, ?_, ?_, Or.inl ⟨rfl, ?_⟩⟩
      · show s.current < s.current + 1 + 1 +
          ((s.source.drop (s.current + 1 + 1)).takeWhile (fun c => decide (c ≠ '\n'))).length
        omega
      · show s.current + 1 + 1 +
          ((s.source.drop (s.current + 1 + 1)).takeWhile
            (fun c => decide (c ≠ '\n'))).length ≤ s.source.length
        omega
      · show s.line = s.line + countNL (sliceCC s.source s.current (s.current + 1 + 1 +
          ((s.source.drop (s.current + 1 + 1)).takeWhile (fun c => decide (c ≠ '\n'))).length))
        rw [hslC, hcnt]
        omega
      · show discardSpan (sliceCC s.source s.current (s.current + 1 + 1 +
          ((s.source.drop (s.current + 1 + 1)).takeWhile (fun c => decide (c ≠ '\n'))).length))
        rw [hslC]
        exact Or.inr (Or.inr (Or.inr (Or.inr
          ⟨(s.source.drop (s.current + 1 + 1)).takeWhile (fun c => decide (c ≠ '\n')),
            rfl, hnoNL⟩)))
    case neg =>
      have hmc : Scanner.match_char { s with current := s.current + 1 } '/' =
          some (false, { s with current := s.current + 1 }) := by
        by_cases hend : s.current + 1 < s.source.length
        · refine @Scanner.match_char_miss { s with current := s.current + 1 } '/' hb hend ?_
          show s.source[s.current + 1] ≠ '/'
          intro he
          exact hnx (List.getElem?_eq_some_iff.mpr ⟨hend, he⟩)
        · exact @Scanner.match_char_end { s with current := s.current + 1 } '/'
            (show byteLen s.source ≤ s.current + 1 by omega)
      rw [hmc]
      show ∃ t, (if false = true then
          commentLoopF (Scanner.fuel { s with current := s.current + 1 })
            { s with current := s.current + 1 }
        else Scanner.add_token { s with current := s.current + 1 } TokenType.slash) =
          some t ∧ StepOK s t
      rw [if_neg (by decide)]
      refine hTok TokenType.slash (s.current + 1) (by decide) (by omega) (by omega) ?_
      rw [hsl1, hc15]
      decide
  rw [if_neg hc15]
  by_cases hc16 : s.source[s.current] = ' ' ∨ s.source[s.current] = '\r' ∨
    s.source[s.current] = '\t'
  case pos =>
    rw [if_pos hc16]
    have h0 : countNL [s.source[s.current]] = 0 := by
      rcases hc16 with h | h | h <;> rw [h] <;> decide
    refine ⟨_, rfl, ?_⟩
    unfold StepOK
    refine ⟨rfl, ?_, ?_, ?_, Or.inl ⟨rfl, ?_⟩⟩
    · show s.current < s.current + 1
      omega
    · show s.current + 1 ≤ s.source.length
      omega
    · show s.line = s.line + countNL (sliceCC s.source s.current (s.current + 1))
      rw [hsl1, h0]
      omega
    · show discardSpan (sliceCC s.source s.current (s.current + 1))
      rw [hsl1]
      unfold discardSpan
      rcases hc16 with h | h | h <;> rw [h]
      · exact Or.inl rfl
      · exact Or.inr (Or.inl rfl)
      · exact Or.inr (Or.inr (Or.inl rfl))
  rw [if_neg hc16]
  by_cases hc17 : s.source[s.current] = '\n'
  case pos =>
    rw [if_pos hc17]
    have h1 : countNL [s.source[s.current]] = 1 := by rw [hc17]; decide
    refine ⟨_, rfl, ?_⟩
    unfold StepOK
    refine ⟨rfl, ?_, ?_, ?_, Or.inl ⟨rfl, ?_⟩⟩
    · show s.current < s.current + 1
      omega
    · show s.current + 1 ≤ s.source.length
      omega
    · show s.line + 1 = s.line + countNL (sliceCC s.source s.current (s.current + 1))
      rw [hsl1, h1]
    · show discardSpan (sliceCC s.source s.current (s.current + 1))
      rw [hsl1, hc17]
      exact Or.inr (Or.inr (Or.inr (Or.inl rfl)))
  rw [if_neg hc17]
  by_cases hc18 : s.source[s.current] = '"'
  case pos =>
    rw [if_pos hc18]
    have hstartlt : s.start < s.source.length := by omega
    have e1 : s.source[s.start]? = s.source[s.current]? := by rw [hst]
    rw [List.getElem?_eq_getElem hstartlt, List.getElem?_eq_getElem hlt] at e1
    have hqS : s.source[s.start] = '"' := (Option.some_inj.mp e1).trans hc18
    by_cases hclq : '"' ∈ s.source.drop (s.start + 1)
    case pos =>
      have hstr := @Scanner.string_term_ascii { s with current := s.current + 1 }
        ((s.source.drop (s.start + 1)).takeWhile (fun c => decide (c ≠ '"'))) ha
        (show s.current + 1 = s.start + 1 by omega) hstartlt hqS rfl hclq
      obtain ⟨hEq, hSl, hCnt⟩ := hstr
      have hblt : ((s.source.drop (s.start + 1)).takeWhile
          (fun c => decide (c ≠ '"'))).length < (s.source.drop (s.start + 1)).length :=
        takeWhile_length_lt hclq (by decide)
      rw [List.length_drop] at hblt
      refine ⟨_, hEq, ?_⟩
      unfold StepOK
      refine ⟨rfl, ?_, ?_, ?_, Or.inr ⟨⟨TokenType.string,
        '"' :: (s.source.drop (s.start + 1)).takeWhile (fun c => decide (c ≠ '"')) ++ ['"'],
        Literal.str ((s.source.drop (s.start + 1)).takeWhile (fun c => decide (c ≠ '"'))),
        s.line + countNL ((s.source.drop (s.start + 1)).takeWhile
          (fun c => decide (c ≠ '"')))⟩, rfl, ?_, ?_,
        by show TokenType.string ≠ TokenType.eof; decide⟩⟩
      · show s.current < s.start + 1 +
          ((s.source.drop (s.start + 1)).takeWhile (fun c => decide (c ≠ '"'))).length + 1
        omega
      · show s.start + 1 +
          ((s.source.drop (s.start + 1)).takeWhile (fun c => decide (c ≠ '"'))).length + 1 ≤
          s.source.length
        omega
      · show s.line + countNL ((s.source.drop (s.start + 1)).takeWhile
            (fun c => decide (c ≠ '"'))) =
          s.line + countNL (sliceCC s.source s.current (s.start + 1 +
            ((s.source.drop (s.start + 1)).takeWhile (fun c => decide (c ≠ '"'))).length + 1))
        rw [← hst, hSl, hCnt]
      · show ('"' :: (s.source.drop (s.start + 1)).takeWhile
            (fun c => decide (c ≠ '"')) ++ ['"'] : List Char) =
          sliceCC s.source s.current (s.start + 1 +
            ((s.source.drop (s.start + 1)).takeWhile (fun c => decide (c ≠ '"'))).length + 1)
        rw [← hst, hSl]
      · show s.line + countNL ((s.source.drop (s.start + 1)).takeWhile
            (fun c => decide (c ≠ '"'))) =
          s.line + countNL ('"' :: (s.source.drop (s.start + 1)).takeWhile
            (fun c => decide (c ≠ '"')) ++ ['"'])
        rw [hCnt]
    case neg =>
      have hstr := @Scanner.string_unterm_ascii { s with current := s.current + 1 } ha
        (show s.current + 1 = s.start + 1 by omega) hstartlt hqS hclq
      obtain ⟨hEq, hCnt⟩ := hstr
      refine ⟨_, hEq, ?_⟩
      unfold StepOK
      refine ⟨rfl, ?_, ?_, ?_, Or.inr ⟨⟨TokenType.unknown, s.source.drop s.start,
        Literal.none, s.line + countNL (s.source.drop (s.start + 1))⟩, rfl, ?_, ?_,
        by show TokenType.unknown ≠ TokenType.eof; decide⟩⟩
      · show s.current < s.source.length
        exact hlt
      · show s.source.length ≤ s.source.length
        exact le_refl _
      · show s.line + countNL (s.source.drop (s.start + 1)) =
          s.line + countNL (sliceCC s.source s.current s.source.length)
        rw [← hst, sliceCC_to_end, hCnt]
      · show s.source.drop s.start = sliceCC s.source s.current s.source.length
        rw [← hst, sliceCC_to_end]
      · show s.line + countNL (s.source.drop (s.start + 1)) =
          s.line + countNL (s.source.drop s.start)
        rw [hCnt]
  rw [if_neg hc18]
  by_cases hc19 : is_digit s.source[s.current] = true
  case pos =>
    rw [if_pos hc19]
    have hstartlt : s.start < s.source.length := by omega
    have e1 : s.source[s.start]? = s.source[s.current]? := by rw [hst]
    rw [List.getElem?_eq_getElem hstartlt, List.getElem?_eq_getElem hlt] at e1
    have hdS : is_digit s.source[s.start] = true := by
      rw [Option.some_inj.mp e1]
      exact hc19
    have hnum := @Scanner.number_ascii { s with current := s.current + 1 } ha
      (show s.current + 1 = s.start + 1 by omega) hstartlt hdS
    obtain ⟨hEq, hSl, hNL, hNe⟩ := hnum
    have hLpos : 0 < (numberLexemeSpec s.source s.start).length := List.length_pos.mpr hNe
    have hle : s.start + (numberLexemeSpec s.source s.start).length ≤ s.source.length :=
      (Scanner.number_bounds (show s.current + 1 ≤ s.source.length by omega) hEq).2
    refine ⟨_, hEq, ?_⟩
    unfold StepOK
    refine ⟨rfl, ?_, ?_, ?_, Or.inr ⟨⟨TokenType.number, numberLexemeSpec s.source s.start,
      Literal.num (numberLexemeSpec s.source s.start), s.line⟩, rfl, ?_, ?_,
      by show TokenType.number ≠ TokenType.eof; decide⟩⟩
    · show s.current < s.start + (numberLexemeSpec s.source s.start).length
      omega
    · show s.start + (numberLexemeSpec s.source s.start).length ≤ s.source.length
      exact hle
    · show s.line = s.line + countNL (sliceCC s.source s.current
        (s.start + (numberLexemeSpec s.source s.start).length))
      rw [← hst, hSl, hNL]
      omega
    · show numberLexemeSpec s.source s.start = sliceCC s.source s.current
        (s.start + (numberLexemeSpec s.source s.start).length)
      rw [← hst, hSl]
    · show s.line = s.line + countNL (numberLexemeSpec s.source s.start)
      rw [hNL]
      omega
  rw [if_neg hc19]
  by_cases hc20 : is_alpha s.source[s.current] = true
  case pos =>
    rw [if_pos hc20]
    have hstartlt : s.start < s.source.length := by omega
    have e1 : s.source[s.start]? = s.source[s.current]? := by rw [hst]
    rw [List.getElem?_eq_getElem hstartlt, List.getElem?_eq_getElem hlt] at e1
    have haS : is_alpha s.source[s.start] = true := by
      rw [Option.some_inj.mp e1]
      exact hc20
    have hid := @Scanner.identifier_ascii { s with current := s.current + 1 } ha
      (show s.current + 1 = s.start + 1 by omega) hstartlt haS
    have hconsR : (s.source.drop s.start).takeWhile is_alpha_numeric =
        s.source[s.start] :: (s.source.drop (s.start + 1)).takeWhile is_alpha_numeric := by
      rw [List.drop_eq_getElem_cons hstartlt, List.takeWhile_cons,
        if_pos (by simp [is_alpha_numeric, haS])]
    have hlenR : ((s.source.drop s.start).takeWhile is_alpha_numeric).length ≤
        s.source.length - s.start := by
      have h2 := takeWhile_length_le is_alpha_numeric (s.source.drop s.start)
      rw [List.length_drop] at h2
      exact h2
    have hposR : 0 < ((s.source.drop s.start).takeWhile is_alpha_numeric).length := by
      rw [hconsR]
      simp
    have hallR : countNL ((s.source.drop s.start).takeWhile is_alpha_numeric) = 0 :=
      countNL_alnum (fun c hc => List.mem_takeWhile_imp hc)
    refine ⟨_, hid, ?_⟩
    unfold StepOK
    refine ⟨rfl, ?_, ?_, ?_, Or.inr ⟨⟨(keywordOf
      ((s.source.drop s.start).takeWhile is_alpha_numeric)).getD TokenType.identifier,
      (s.source.drop s.start).takeWhile is_alpha_numeric, Literal.none, s.line⟩,
      rfl, ?_, ?_, keywordOf_getD_ne_eof _⟩⟩
    · show s.current < s.start + ((s.source.drop s.start).takeWhile is_alpha_numeric).length
      omega
    · show s.start + ((s.source.drop s.start).takeWhile is_alpha_numeric).length ≤
        s.source.length
      omega
    · show s.line = s.line + countNL (sliceCC s.source s.current
        (s.start + ((s.source.drop s.start).takeWhile is_alpha_numeric).length))
      rw [← hst, sliceCC_takeWhile, hallR]
      omega
    · show (s.source.drop s.start).takeWhile is_alpha_numeric = sliceCC s.source s.current
        (s.start + ((s.source.drop s.start).takeWhile is_alpha_numeric).length)
      rw [← hst, sliceCC_takeWhile]
    · show s.line = s.line + countNL ((s.source.drop s.start).takeWhile is_alpha_numeric)
      rw [hallR]
      omega
  rw [if_neg hc20]
  have hnl0 : countNL [s.source[s.current]] = 0 := by
    show List.count '\n' [s.source[s.current]] = 0
    refine List.count_eq_zero.mpr ?_
    rw [List.mem_singleton]
    exact fun he => hc17 he.symm
  refine hTok TokenType.unknown (s.current + 1) (by decide) (by omega) (by omega) ?_
  rw [hsl1]
  exact hnl0

/-! ## Segmentation of a full scan -/

theorem scanLoopF_segs :
    ∀ fuel (s : Scanner), asciiOnly s.source → s.current ≤ s.source.length →
      s.source.length - s.current < fuel →
      ∃ (segs : List Seg) (t : Scanner),
        scanLoopF fuel s = some t ∧
        t.source = s.source ∧
        t.current = s.source.length ∧
        segsText segs = s.source.drop s.current ∧
        t.tokens = s.tokens ++ segsTokens segs ∧
        t.line = s.line + countNL (segsText segs) ∧
        segsOK s.line segs := by
  intro fuel
  induction fuel with
  | zero => intro s ha hc hf; omega
  | succ n ih =>
    intro s ha hc hf
    have hb : byteLen s.source = s.source.length := ascii_byteLen ha
    by_cases hend : s.source.length ≤ s.current
    case pos =>
      have hcur : s.current = s.source.length := by omega
      refine ⟨[], s, ?_, rfl, hcur, ?_, ?_, ?_, trivial⟩
      · rw [scanLoopF]
        rw [Scanner.is_at_end_true (show byteLen s.source ≤ s.current by omega)]
        rw [if_pos rfl]
      · show segsText [] = s.source.drop s.current
        rw [hcur, List.drop_length]
        rfl
      · show s.tokens = s.tokens ++ segsTokens []
        simp [segsTokens]
      · show s.line = s.line + countNL (segsText [])
        simp [segsText, countNL]
    case neg =>
      have hlt : s.current < s.source.length := by omega
      obtain ⟨t1, hstep, hok⟩ :=
        @Scanner.scan_token_step { s with start := s.current } ha rfl hlt
      have h1 : t1.source = s.source := hok.1
      have h2 : s.current < t1.current := hok.2.1
      have h3 : t1.current ≤ s.source.length := hok.2.2.1
      have h4 : t1.line = s.line + countNL (sliceCC s.source s.current t1.current) :=
        hok.2.2.2.1
      have h5 : (t1.tokens = s.tokens ∧
            discardSpan (sliceCC s.source s.current t1.current)) ∨
          ∃ tk, t1.tokens = s.tokens ++ [tk] ∧
            tk.lexeme = sliceCC s.source s.current t1.current ∧
            tk.line = s.line + countNL tk.lexeme ∧
            tk.token_type ≠ TokenType.eof := hok.2.2.2.2
      have ha1 : asciiOnly t1.source := by rw [h1]; exact ha
      have hc1 : t1.current ≤ t1.source.length := by rw [h1]; exact h3
      have hf1 : t1.source.length - t1.current < n := by rw [h1]; omega
      obtain ⟨segs1, t2, hrec, hsrc2, hcur2, htext2, htok2, hline2, hokS⟩ :=
        ih t1 ha1 hc1 hf1
      rw [h1] at hsrc2 hcur2 htext2
      have hgoal1 : scanLoopF (n + 1) s = some t2 := by
        rw [scanLoopF]
        rw [Scanner.is_at_end_false hb hlt]
        simp only [Bool.false_eq_true, if_false]
        rw [hstep]
        exact hrec
      rcases h5 with ⟨htoks, hdisc⟩ | ⟨tk, htoks, hlex, htl, hne⟩
      · refine ⟨⟨sliceCC s.source s.current t1.current, Option.none⟩ :: segs1, t2,
          hgoal1, hsrc2, hcur2, ?_, ?_, ?_, ?_⟩
        · show sliceCC s.source s.current t1.current ++ segsText segs1 =
            s.source.drop s.current
          rw [htext2]
          exact sliceCC_append_drop (le_of_lt h2)
        · show t2.tokens = s.tokens ++ segsTokens segs1
          rw [htok2, htoks]
        · show t2.line = s.line +
            countNL (sliceCC s.source s.current t1.current ++ segsText segs1)
          rw [countNL_append, hline2, h4]
          omega
        · show discardSpan (sliceCC s.source s.current t1.current) ∧
            segsOK (s.line + countNL (sliceCC s.source s.current t1.current)) segs1
          exact ⟨hdisc, h4 ▸ hokS⟩
      · refine ⟨⟨sliceCC s.source s.current t1.current, some tk⟩ :: segs1, t2,
          hgoal1, hsrc2, hcur2, ?_, ?_, ?_, ?_⟩
        · show sliceCC s.source s.current t1.current ++ segsText segs1 =
            s.source.drop s.current
          rw [htext2]
          exact sliceCC_append_drop (le_of_lt h2)
        · show t2.tokens = s.tokens ++ (tk :: segsTokens segs1)
          rw [htok2, htoks]
          simp
        · show t2.line = s.line +
            countNL (sliceCC s.source s.current t1.current ++ segsText segs1)
          rw [countNL_append, hline2, h4]
          omega
        · show (tk.lexeme = sliceCC s.source s.current t1.current ∧
              tk.line = s.line + countNL (sliceCC s.source s.current t1.current) ∧
              tk.token_type ≠ TokenType.eof) ∧
            segsOK (s.line + countNL (sliceCC s.source s.current t1.current)) segs1
          refine ⟨⟨hlex, ?_, hne⟩, h4 ▸ hokS⟩
          rw [htl, hlex]

theorem Scanner.scan_tokens_ascii {s : Scanner} (ha : asciiOnly s.source)
    (hc : s.current ≤ s.source.length) :
    ∃ segs t,
      s.scan_tokens = some (t.tokens, t) ∧
      t.source = s.source ∧
      t.current = s.source.length ∧
      t.tokens = s.tokens ++ segsTokens segs ++
        [⟨TokenType.eof, [], Literal.none, s.line + countNL (segsText segs)⟩] ∧
      t.line = s.line + countNL (segsText segs) ∧
      segsText segs = s.source.drop s.current ∧
      segsOK s.line segs := by
  have hfuel : s.source.length - s.current < s.fuel := by
    unfold Scanner.fuel
    have := length_le_byteLen s.source
    omega
  obtain ⟨segs, t1, hrun, hsrc, hcur, htext, htok, hline, hok⟩ :=
    scanLoopF_segs s.fuel s ha hc hfuel
  unfold Scanner.scan_tokens Scanner.scanLoop
  rw [hrun]
  refine ⟨segs,
    { t1 with tokens := t1.tokens ++ [⟨TokenType.eof, [], Literal.none, t1.line⟩] },
    rfl, hsrc, hcur, ?_, ?_, htext, hok⟩
  · show t1.tokens ++ [⟨TokenType.eof, [], Literal.none, t1.line⟩] =
      s.tokens ++ segsTokens segs ++
        [⟨TokenType.eof, [], Literal.none, s.line + countNL (segsText segs)⟩]
    rw [htok, hline]
  · show t1.line = s.line + countNL (segsText segs)
    exact hline

theorem scanTokens_ascii {src : List Char} (ha : asciiOnly src) :
    ∃ segs,
      scanTokens src = some (segsTokens segs ++
        [⟨TokenType.eof, [], Literal.none, 1 + countNL src⟩]) ∧
      segsText segs = src ∧
      segsOK 1 segs := by
  obtain ⟨segs, t, h1, h2, h3, h4, h5, h6, h7⟩ :=
    @Scanner.scan_tokens_ascii (Scanner.new src) ha
      (show (0 : Nat) ≤ src.length by omega)
  have h6' : segsText segs = src := h6.trans (List.drop_zero src)
  refine ⟨segs, ?_, h6', h7⟩
  unfold scanTokens
  rw [h1]
  show some t.tokens = some (segsTokens segs ++
    [⟨TokenType.eof, [], Literal.none, 1 + countNL src⟩])
  rw [h4, h6']
  rfl

/-! ## Consequences of the segmentation -/

/-- A successful fresh scan decomposes the source into segments. -/
theorem scanTokens_segs {src : List Char} {ts : List Token}
    (h : scanTokens src = some ts) :
    ∃ segs, segsText segs = src ∧ segsOK 1 segs ∧
      ts = segsTokens segs ++
        [⟨TokenType.eof, [], Literal.none, 1 + countNL src⟩] := by
  have hx : ∃ x, (Scanner.new src).scan_tokens = some x := by
    unfold scanTokens at h
    cases hc : (Scanner.new src).scan_tokens with
    | none => rw [hc] at h; exact Option.noConfusion h
    | some x => exact ⟨x, rfl⟩
  obtain ⟨x, hx⟩ := hx
  have ha := scanTokens_some_ascii hx
  obtain ⟨segs, h1, h2, h3⟩ := scanTokens_ascii ha
  refine ⟨segs, h2, h3, ?_⟩
  rw [h] at h1
  exact Option.some_inj.mp h1

/-- The per-segment facts a well-formed segment list yields: token
segments carry their span as lexeme, token-less segments are discarded
whitespace/comment spans. -/
theorem segsOK_facts : ∀ (line : Nat) (segs : List Seg), segsOK line segs →
    (∀ sg ∈ segs, ∀ t, sg.tok = some t → t.lexeme = sg.text) ∧
    (∀ sg ∈ segs, sg.tok = Option.none → discardSpan sg.text) := by
  intro line segs
  induction segs generalizing line with
  | nil =>
    intro _
    exact ⟨by simp, by simp⟩
  | cons sg rest ih =>
    intro hok
    obtain ⟨hhead, htail⟩ := hok
    obtain ⟨ih1, ih2⟩ := ih (line + countNL sg.text) htail
    constructor
    · intro sg2 hmem t htok
      rcases List.mem_cons.mp hmem with he | hmem2
      · subst he
        rw [htok] at hhead
        exact (show t.lexeme = sg2.text ∧ t.line = line + countNL sg2.text ∧
          t.token_type ≠ TokenType.eof from hhead).1
      · exact ih1 sg2 hmem2 t htok
    · intro sg2 hmem htok
      rcases List.mem_cons.mp hmem with he | hmem2
      · subst he
        rw [htok] at hhead
        exact (show discardSpan sg2.text from hhead)
      · exact ih2 sg2 hmem2 htok

/-- A loop that starts at the end of the source returns immediately. -/
theorem scanLoopF_at_end {fuel : Nat} {s : Scanner}
    (hend : byteLen s.source ≤ s.current) (hf : 1 ≤ fuel) :
    scanLoopF fuel s = some s := by
  obtain ⟨k, hk⟩ : ∃ k, fuel = k + 1 := ⟨fuel - 1, by omega⟩
  subst hk
  rw [scanLoopF, Scanner.is_at_end_true hend, if_pos rfl]

/-- A loop whose first step lands exactly at the end of the source. -/
theorem scanLoopF_two {fuel : Nat} {s t1 : Scanner}
    (hb : byteLen s.source = s.source.length)
    (hlt : s.current < s.source.length)
    (hstep : Scanner.scan_token { s with start := s.current } = some t1)
    (hbe : byteLen t1.source ≤ t1.current)
    (hf : 2 ≤ fuel) :
    scanLoopF fuel s = some t1 := by
  obtain ⟨k, hk⟩ : ∃ k, fuel = k + 1 + 1 := ⟨fuel - 2, by omega⟩
  subst hk
  rw [scanLoopF]
  rw [Scanner.is_at_end_false hb hlt]
  simp only [Bool.false_eq_true, if_false]
  rw [hstep]
  show scanLoopF (k + 1) t1 = some t1
  exact scanLoopF_at_end hbe (by omega)

/-- `scan_tokens` on a source whose single remaining step consumes
everything: the step's token buffer plus the Eof token. -/
theorem Scanner.scan_tokens_one_step {s t1 : Scanner}
    (hb : byteLen s.source = s.source.length)
    (hlt : s.current < s.source.length)
    (hstep : Scanner.scan_token { s with start := s.current } = some t1)
    (hend : byteLen t1.source ≤ t1.current) :
    s.scan_tokens = some (t1.tokens ++ [⟨TokenType.eof, [], Literal.none, t1.line⟩],
      { t1 with tokens := t1.tokens ++ [⟨TokenType.eof, [], Literal.none, t1.line⟩] }) := by
  unfold Scanner.scan_tokens Scanner.scanLoop
  rw [scanLoopF_two hb hlt hstep hend
    (show 2 ≤ s.fuel by unfold Scanner.fuel; omega)]


/-- `keywords.get` hits exactly on the sixteen keyword spellings. -/
theorem keywordOf_spellings (text : List Char) :
    (∃ k, keywordOf text = some k) ↔
      (text = "and".toList ∨
      text = "class".toList ∨
      text = "else".toList ∨
      text = "false".toList ∨
      text = "for".toList ∨
      text = "fun".toList ∨
      text = "if".toList ∨
      text = "nil".toList ∨
      text = "or".toList ∨
      text = "print".toList ∨
      text = "return".toList ∨
      text = "super".toList ∨
      text = "this".toList ∨
      text = "true".toList ∨
      text = "var".toList ∨
      text = "while".toList) := by
  unfold keywordOf
  by_cases hs1 : text = "and".toList
  · rw [if_pos hs1]
    exact iff_of_true ⟨_, rfl⟩ (by tauto)
  rw [if_neg hs1]
  by_cases hs2 : text = "class".toList
  · rw [if_pos hs2]
    exact iff_of_true ⟨_, rfl⟩ (by tauto)
  rw [if_neg hs2]
  by_cases hs3 : text = "else".toList
  · rw [if_pos hs3]
    exact iff_of_true ⟨_, rfl⟩ (by tauto)
  rw [if_neg hs3]
  by_cases hs4 : text = "false".toList
  · rw [if_pos hs4]
    exact iff_of_true ⟨_, rfl⟩ (by tauto)
  rw [if_neg hs4]
  by_cases hs5 : text = "for".toList
  · rw [if_pos hs5]
    exact iff_of_true ⟨_, rfl⟩ (by tauto)
  rw [if_neg hs5]
  by_cases hs6 : text = "fun".toList
  · rw [if_pos hs6]
    exact iff_of_true ⟨_, rfl⟩ (by tauto)
  rw [if_neg hs6]
  by_cases hs7 : text = "if".toList
  · rw [if_pos hs7]
    exact iff_of_true ⟨_, rfl⟩ (by tauto)
  rw [if_neg hs7]
  by_cases hs8 : text = "nil".toList
  · rw [if_pos hs8]
    exact iff_of_true ⟨_, rfl⟩ (by tauto)
  rw [if_neg hs8]
  by_cases hs9 : text = "or".toList
  · rw [if_pos hs9]
    exact iff_of_true ⟨_, rfl⟩ (by tauto)
  rw [if_neg hs9]
  by_cases hs10 : text = "print".toList
  · rw [if_pos hs10]
    exact iff_of_true ⟨_, rfl⟩ (by tauto)
  rw [if_neg hs10]
  by_cases hs11 : text = "return".toList
  · rw [if_pos hs11]
    exact iff_of_true ⟨_, rfl⟩ (by tauto)
  rw [if_neg hs11]
  by_cases hs12 : text = "super".toList
  · rw [if_pos hs12]
    exact iff_of_true ⟨_, rfl⟩ (by tauto)
  rw [if_neg hs12]
  by_cases hs13 : text = "this".toList
  · rw [if_pos hs13]
    exact iff_of_true ⟨_, rfl⟩ (by tauto)
  rw [if_neg hs13]
  by_cases hs14 : text = "true".toList
  · rw [if_pos hs14]
    exact iff_of_true ⟨_, rfl⟩ (by tauto)
  rw [if_neg hs14]
  by_cases hs15 : text = "var".toList
  · rw [if_pos hs15]
    exact iff_of_true ⟨_, rfl⟩ (by tauto)
  rw [if_neg hs15]
  by_cases hs16 : text = "while".toList
  · rw [if_pos hs16]
    exact iff_of_true ⟨_, rfl⟩ (by tauto)
  rw [if_neg hs16]
  refine iff_of_false (fun hk => hk.elim (fun k hk2 => Option.noConfusion hk2)) ?_
  intro hOr
  rcases hOr with e|e|e|e|e|e|e|e|e|e|e|e|e|e|e|e
  exacts [hs1 e, hs2 e, hs3 e, hs4 e, hs5 e, hs6 e, hs7 e, hs8 e, hs9 e,
    hs10 e, hs11 e, hs12 e, hs13 e, hs14 e, hs15 e, hs16 e]

/-! ## The claims -/

/-- C1: the specification claims that for every UTF-8-decodable source
text, `scan_tokens` terminates without a hard failure and returns a
token sequence.  This is false as stated — `C1_counterexample` exhibits
a one-character decodable source on which the scan panics (the scanner
reads characters by char index but bounds and slices the source by
bytes) — and is amended here: on every all-ASCII source, where char and
byte indices agree, the single `scan_tokens` call always returns a
token sequence. -/
theorem C1_ascii_total {src : List Char} (ha : asciiOnly src) :
    ∃ ts, scanTokens src = some ts := by
  obtain ⟨segs, h1, h2, h3⟩ := scanTokens_ascii ha
  exact ⟨_, h1⟩

theorem C1_witness : asciiOnly ['a', '+', 'b'] ∧
    ∃ ts, scanTokens ['a', '+', 'b'] = some ts :=
  ⟨by decide, C1_ascii_total (by decide)⟩

/-- C1 counterexample: the UTF-8-decodable single-character source `é`
(two bytes, one char) makes `scan_tokens` panic — modelled as `none` —
because `advance` indexes characters while `is_at_end` compares against
the byte length. -/
theorem C1_counterexample : scanTokens ['é'] = Option.none := by decide

/-- C2: every successful scan returns a sequence ending in exactly one
Eof token with empty lexeme (carrying the final line count), with no
token after it and no Eof token anywhere earlier; scanning the empty
string yields just the Eof token at line 1. -/
theorem C2_eof_terminal {src : List Char} {ts : List Token}
    (h : scanTokens src = some ts) :
    (∃ pre, ts = pre ++ [⟨TokenType.eof, [], Literal.none, 1 + countNL src⟩] ∧
      ∀ t ∈ pre, t.token_type ≠ TokenType.eof) ∧
    scanTokens [] = some [⟨TokenType.eof, [], Literal.none, 1⟩] := by
  obtain ⟨segs, h1, h2, h3⟩ := scanTokens_segs h
  exact ⟨⟨segsTokens segs, h3, segsOK_no_eof 1 segs h2⟩, by decide⟩

theorem C2_witness :
    (∃ pre : List Token, [⟨TokenType.identifier, ['a'], Literal.none, 1⟩,
        ⟨TokenType.eof, [], Literal.none, 1 + countNL ['a']⟩] =
          pre ++ [⟨TokenType.eof, [], Literal.none, 1 + countNL ['a']⟩] ∧
        ∀ t ∈ pre, t.token_type ≠ TokenType.eof) ∧
      scanTokens [] = some [⟨TokenType.eof, [], Literal.none, 1⟩] :=
  C2_eof_terminal (show scanTokens ['a'] =
    some [⟨TokenType.identifier, ['a'], Literal.none, 1⟩,
      ⟨TokenType.eof, [], Literal.none, 1 + countNL ['a']⟩] by decide)

/-- C3: the specification claims every non-Eof token's `line` is the
line of the token's *first* character, even for multi-line strings.
This is false for multi-line strings — `C3_counterexample` shows a
string opening on line 1 recorded with line 2, because `Scanner::string`
reads `self.line` only after consuming the (newline-counting) body — and
is amended here: every successful scan splits the source into spans
(`segsOK`) in which each token's `line` is the line its span *starts* on
plus the newlines inside its lexeme, i.e. the line where its lexeme
ends. -/
theorem C3_token_lines {src : List Char} {ts : List Token}
    (h : scanTokens src = some ts) :
    ∃ segs, segsText segs = src ∧ segsOK 1 segs ∧
      ts = segsTokens segs ++
        [⟨TokenType.eof, [], Literal.none, 1 + countNL src⟩] :=
  scanTokens_segs h

theorem C3_witness :
    ∃ segs, segsText segs = ['a'] ∧ segsOK 1 segs ∧
      [⟨TokenType.identifier, ['a'], Literal.none, 1⟩,
        ⟨TokenType.eof, [], Literal.none, 1 + countNL ['a']⟩] =
        segsTokens segs ++
          [⟨TokenType.eof, [], Literal.none, 1 + countNL ['a']⟩] :=
  C3_token_lines (show scanTokens ['a'] =
    some [⟨TokenType.identifier, ['a'], Literal.none, 1⟩,
      ⟨TokenType.eof, [], Literal.none, 1 + countNL ['a']⟩] by decide)

/-- C3 counterexample: in the source `"a\nb"` the string token's first
character (the opening quote) is on line 1, yet the emitted token
carries line 2 (the line of the closing quote). -/
theorem C3_counterexample :
    scanTokens ['"', 'a', '\n', 'b', '"'] =
      some [⟨TokenType.string, ['"', 'a', '\n', 'b', '"'],
          Literal.str ['a', '\n', 'b'], 2⟩,
        ⟨TokenType.eof, [], Literal.none, 2⟩] := by decide

/-- C4: from any position holding an opening quote that is never matched
by a closing quote, the scan emits exactly one error token — the same
`Unknown` kind used for an unrecognised character, as the concrete
`scanTokens ['#']` conjunct shows — whose lexeme runs from the opening
quote to the end of input, followed only by the Eof token. -/
theorem C4_unterminated {s : Scanner} (ha : asciiOnly s.source)
    (hlt : s.current < s.source.length)
    (hq : s.source[s.current] = '"')
    (hno : '"' ∉ s.source.drop (s.current + 1)) :
    (∃ t, s.scan_tokens = some ((s.tokens ++
        [⟨TokenType.unknown, s.source.drop s.current, Literal.none,
          s.line + countNL (s.source.drop (s.current + 1))⟩]) ++
        [⟨TokenType.eof, [], Literal.none,
          s.line + countNL (s.source.drop (s.current + 1))⟩], t)) ∧
    scanTokens ['#'] = some [⟨TokenType.unknown, ['#'], Literal.none, 1⟩,
      ⟨TokenType.eof, [], Literal.none, 1⟩] := by
  refine ⟨?_, by decide⟩
  have hb : byteLen s.source = s.source.length := ascii_byteLen ha
  have hstr := @Scanner.string_unterm_ascii
    { s with start := s.current, current := s.current + 1 } ha rfl
    (show s.current < s.source.length from hlt) hq hno
  have hT1 : Scanner.string { s with start := s.current, current := s.current + 1 } =
      some { s with
        start := s.current
        current := s.source.length
        line := s.line + countNL (s.source.drop (s.current + 1))
        tokens := s.tokens ++ [⟨TokenType.unknown, s.source.drop s.current, Literal.none,
          s.line + countNL (s.source.drop (s.current + 1))⟩] } := hstr.1
  have hstep : Scanner.scan_token { s with start := s.current } =
      some { s with
        start := s.current
        current := s.source.length
        line := s.line + countNL (s.source.drop (s.current + 1))
        tokens := s.tokens ++ [⟨TokenType.unknown, s.source.drop s.current, Literal.none,
          s.line + countNL (s.source.drop (s.current + 1))⟩] } := by
    rw [Scanner.scan_token_eq (@Scanner.advance_lt { s with start := s.current }
      (show s.current < s.source.length from hlt))]
    repeat rw [if_neg (by rw [hq]; decide)]
    rw [if_pos hq]
    exact hT1
  exact ⟨_, Scanner.scan_tokens_one_step hb hlt hstep
    (show byteLen s.source ≤ s.source.length by omega)⟩

theorem C4_witness :
    (∃ t, (Scanner.new ['"', 'u', 'n', 't', 'e', 'r', 'm', 'i', 'n', 'a', 't', 'e', 'd']).scan_tokens =
      some ([⟨TokenType.unknown,
          ['"', 'u', 'n', 't', 'e', 'r', 'm', 'i', 'n', 'a', 't', 'e', 'd'],
          Literal.none, 1⟩,
        ⟨TokenType.eof, [], Literal.none, 1⟩], t)) ∧
    scanTokens ['#'] = some [⟨TokenType.unknown, ['#'], Literal.none, 1⟩,
      ⟨TokenType.eof, [], Literal.none, 1⟩] :=
  C4_unterminated (by decide) (by decide) (by decide) (by decide)

/-- C5: a successful scan decomposes the source into consecutive,
non-overlapping spans covering it exactly; each span either becomes one
output token whose lexeme is precisely that span, or is a discarded
whitespace/comment span, and the output is those tokens in span order
followed by Eof. -/
theorem C5_reconstruction {src : List Char} {ts : List Token}
    (h : scanTokens src = some ts) :
    ∃ segs, segsText segs = src ∧
      ts = segsTokens segs ++
        [⟨TokenType.eof, [], Literal.none, 1 + countNL src⟩] ∧
      (∀ sg ∈ segs, ∀ t, sg.tok = some t → t.lexeme = sg.text) ∧
      (∀ sg ∈ segs, sg.tok = Option.none → discardSpan sg.text) := by
  obtain ⟨segs, h1, h2, h3⟩ := scanTokens_segs h
  obtain ⟨f1, f2⟩ := segsOK_facts 1 segs h2
  exact ⟨segs, h1, h3, f1, f2⟩

theorem C5_witness :
    ∃ segs, segsText segs = ['1'] ∧
      [⟨TokenType.number, ['1'], Literal.num ['1'], 1⟩,
        ⟨TokenType.eof, [], Literal.none, 1 + countNL ['1']⟩] =
        segsTokens segs ++
          [⟨TokenType.eof, [], Literal.none, 1 + countNL ['1']⟩] ∧
      (∀ sg ∈ segs, ∀ t, sg.tok = some t → t.lexeme = sg.text) ∧
      (∀ sg ∈ segs, sg.tok = Option.none → discardSpan sg.text) :=
  C5_reconstruction (show scanTokens ['1'] =
    some [⟨TokenType.number, ['1'], Literal.num ['1'], 1⟩,
      ⟨TokenType.eof, [], Literal.none, 1 + countNL ['1']⟩] by decide)


/-- C6: at a character among `! = < >`, the scanner consumes the
following `=` as well when present — emitting the single two-character
kind — and otherwise emits the one-character kind, so two-character
operators are never split; concretely the scans of `!=`, `!`, `==`, `=`
yield BangEqual, Bang, EqualEqual, Equal. -/
theorem C6_operators {s : Scanner} {c : Char} {k1 k2 : TokenType}
    (ha : asciiOnly s.source) (hst : s.start = s.current)
    (hlt : s.current < s.source.length) (hc : s.source[s.current] = c)
    (hk : (c = '!' ∧ k1 = TokenType.bang ∧ k2 = TokenType.bangEqual) ∨
      (c = '=' ∧ k1 = TokenType.equal ∧ k2 = TokenType.equalEqual) ∨
      (c = '<' ∧ k1 = TokenType.less ∧ k2 = TokenType.lessEqual) ∨
      (c = '>' ∧ k1 = TokenType.greater ∧ k2 = TokenType.greaterEqual)) :
    ((s.source[s.current + 1]? = some '=' →
      s.scan_token = some { s with
        current := s.current + 1 + 1
        tokens := s.tokens ++ [⟨k2, [c, '='], Literal.none, s.line⟩] }) ∧
    (s.source[s.current + 1]? ≠ some '=' →
      s.scan_token = some { s with
        current := s.current + 1
        tokens := s.tokens ++ [⟨k1, [c], Literal.none, s.line⟩] })) ∧
    (scanTokens ['!', '='] = some [⟨TokenType.bangEqual, ['!', '='], Literal.none, 1⟩,
        ⟨TokenType.eof, [], Literal.none, 1⟩] ∧
      scanTokens ['!'] = some [⟨TokenType.bang, ['!'], Literal.none, 1⟩,
        ⟨TokenType.eof, [], Literal.none, 1⟩] ∧
      scanTokens ['=', '='] = some [⟨TokenType.equalEqual, ['=', '='], Literal.none, 1⟩,
        ⟨TokenType.eof, [], Literal.none, 1⟩] ∧
      scanTokens ['='] = some [⟨TokenType.equal, ['='], Literal.none, 1⟩,
        ⟨TokenType.eof, [], Literal.none, 1⟩]) := by
  have hb : byteLen s.source = s.source.length := ascii_byteLen ha
  refine ⟨?_, by decide, by decide, by decide, by decide⟩
  rcases hk with ⟨hcc, hk1, hk2⟩ | ⟨hcc, hk1, hk2⟩ | ⟨hcc, hk1, hk2⟩ | ⟨hcc, hk1, hk2⟩ <;>
    subst hcc <;> subst hk1 <;> subst hk2

  · constructor
    · intro hnx
      obtain ⟨hlt2, heq2⟩ := List.getElem?_eq_some_iff.mp hnx
      rw [Scanner.scan_token_eq (Scanner.advance_lt hlt)]
      repeat rw [if_neg (by rw [hc]; decide)]
      rw [if_pos hc]
      rw [@Scanner.match_char_hit { s with current := s.current + 1 } '=' hb hlt2 heq2]
      show Scanner.add_token { s with current := s.current + 1 + 1 }
          (if true = true then TokenType.bangEqual else TokenType.bang) =
        some { s with
          current := s.current + 1 + 1
          tokens := s.tokens ++ [⟨TokenType.bangEqual, ['!', '='], Literal.none, s.line⟩] }
      rw [if_pos rfl]
      rw [@Scanner.add_token_ascii { s with current := s.current + 1 + 1 } TokenType.bangEqual ha
        (show s.start ≤ s.current + 1 + 1 by omega)
        (show s.current + 1 + 1 ≤ s.source.length by omega)]
      have hslice : sliceCC s.source s.start (s.current + 1 + 1) = ['!', '='] := by
        rw [hst]
        rw [sliceCC_trans (show s.current ≤ s.current + 1 by omega)
          (show s.current + 1 ≤ s.current + 1 + 1 by omega)]
        rw [sliceCC_singleton hlt, hc]
        rw [sliceCC_singleton hlt2, heq2]
        rfl
      rw [hslice]
    · intro hnx
      have hmc : Scanner.match_char { s with current := s.current + 1 } '=' =
          some (false, { s with current := s.current + 1 }) := by
        by_cases hend : s.current + 1 < s.source.length
        · refine @Scanner.match_char_miss { s with current := s.current + 1 } '=' hb hend ?_
          show s.source[s.current + 1] ≠ '='
          intro he
          exact hnx (List.getElem?_eq_some_iff.mpr ⟨hend, he⟩)
        · exact @Scanner.match_char_end { s with current := s.current + 1 } '='
            (show byteLen s.source ≤ s.current + 1 by omega)
      rw [Scanner.scan_token_eq (Scanner.advance_lt hlt)]
      repeat rw [if_neg (by rw [hc]; decide)]
      rw [if_pos hc]
      rw [hmc]
      show Scanner.add_token { s with current := s.current + 1 }
          (if false = true then TokenType.bangEqual else TokenType.bang) =
        some { s with
          current := s.current + 1
          tokens := s.tokens ++ [⟨TokenType.bang, ['!'], Literal.none, s.line⟩] }
      rw [if_neg (by decide)]
      rw [@Scanner.add_token_ascii { s with current := s.current + 1 } TokenType.bang ha
        (show s.start ≤ s.current + 1 by omega)
        (show s.current + 1 ≤ s.source.length by omega)]
      have hslice : sliceCC s.source s.start (s.current + 1) = ['!'] := by
        rw [hst, sliceCC_singleton hlt, hc]
      rw [hslice]
  · constructor
    · intro hnx
      obtain ⟨hlt2, heq2⟩ := List.getElem?_eq_some_iff.mp hnx
      rw [Scanner.scan_token_eq (Scanner.advance_lt hlt)]
      repeat rw [if_neg (by rw [hc]; decide)]
      rw [if_pos hc]
      rw [@Scanner.match_char_hit { s with current := s.current + 1 } '=' hb hlt2 heq2]
      show Scanner.add_token { s with current := s.current + 1 + 1 }
          (if true = true then TokenType.equalEqual else TokenType.equal) =
        some { s with
          current := s.current + 1 + 1
          tokens := s.tokens ++ [⟨TokenType.equalEqual, ['=', '='], Literal.none, s.line⟩] }
      rw [if_pos rfl]
      rw [@Scanner.add_token_ascii { s with current := s.current + 1 + 1 } TokenType.equalEqual ha
        (show s.start ≤ s.current + 1 + 1 by omega)
        (show s.current + 1 + 1 ≤ s.source.length by omega)]
      have hslice : sliceCC s.source s.start (s.current + 1 + 1) = ['=', '='] := by
        rw [hst]
        rw [sliceCC_trans (show s.current ≤ s.current + 1 by omega)
          (show s.current + 1 ≤ s.current + 1 + 1 by omega)]
        rw [sliceCC_singleton hlt, hc]
        rw [sliceCC_singleton hlt2, heq2]
        rfl
      rw [hslice]
    · intro hnx
      have hmc : Scanner.match_char { s with current := s.current + 1 } '=' =
          some (false, { s with current := s.current + 1 }) := by
        by_cases hend : s.current + 1 < s.source.length
        · refine @Scanner.match_char_miss { s with current := s.current + 1 } '=' hb hend ?_
          show s.source[s.current + 1] ≠ '='
          intro he
          exact hnx (List.getElem?_eq_some_iff.mpr ⟨hend, he⟩)
        · exact @Scanner.match_char_end { s with current := s.current + 1 } '='
            (show byteLen s.source ≤ s.current + 1 by omega)
      rw [Scanner.scan_token_eq (Scanner.advance_lt hlt)]
      repeat rw [if_neg (by rw [hc]; decide)]
      rw [if_pos hc]
      rw [hmc]
      show Scanner.add_token { s with current := s.current + 1 }
          (if false = true then TokenType.equalEqual else TokenType.equal) =
        some { s with
          current := s.current + 1
          tokens := s.tokens ++ [⟨TokenType.equal, ['='], Literal.none, s.line⟩] }
      rw [if_neg (by decide)]
      rw [@Scanner.add_token_ascii { s with current := s.current + 1 } TokenType.equal ha
        (show s.start ≤ s.current + 1 by omega)
        (show s.current + 1 ≤ s.source.length by omega)]
      have hslice : sliceCC s.source s.start (s.current + 1) = ['='] := by
        rw [hst, sliceCC_singleton hlt, hc]
      rw [hslice]
  · constructor
    · intro hnx
      obtain ⟨hlt2, heq2⟩ := List.getElem?_eq_some_iff.mp hnx
      rw [Scanner.scan_token_eq (Scanner.advance_lt hlt)]
      repeat rw [if_neg (by rw [hc]; decide)]
      rw [if_pos hc]
      rw [@Scanner.match_char_hit { s with current := s.current + 1 } '=' hb hlt2 heq2]
      show Scanner.add_token { s with current := s.current + 1 + 1 }
          (if true = true then TokenType.lessEqual else TokenType.less) =
        some { s with
          current := s.current + 1 + 1
          tokens := s.tokens ++ [⟨TokenType.lessEqual, ['<', '='], Literal.none, s.line⟩] }
      rw [if_pos rfl]
      rw [@Scanner.add_token_ascii { s with current := s.current + 1 + 1 } TokenType.lessEqual ha
        (show s.start ≤ s.current + 1 + 1 by omega)
        (show s.current + 1 + 1 ≤ s.source.length by omega)]
      have hslice : sliceCC s.source s.start (s.current + 1 + 1) = ['<', '='] := by
        rw [hst]
        rw [sliceCC_trans (show s.current ≤ s.current + 1 by omega)
          (show s.current + 1 ≤ s.current + 1 + 1 by omega)]
        rw [sliceCC_singleton hlt, hc]
        rw [sliceCC_singleton hlt2, heq2]
        rfl
      rw [hslice]
    · intro hnx
      have hmc : Scanner.match_char { s with current := s.current + 1 } '=' =
          some (false, { s with current := s.current + 1 }) := by
        by_cases hend : s.current + 1 < s.source.length
        · refine @Scanner.match_char_miss { s with current := s.current + 1 } '=' hb hend ?_
          show s.source[s.current + 1] ≠ '='
          intro he
          exact hnx (List.getElem?_eq_some_iff.mpr ⟨hend, he⟩)
        · exact @Scanner.match_char_end { s with current := s.current + 1 } '='
            (show byteLen s.source ≤ s.current + 1 by omega)
      rw [Scanner.scan_token_eq (Scanner.advance_lt hlt)]
      repeat rw [if_neg (by rw [hc]; decide)]
      rw [if_pos hc]
      rw [hmc]
      show Scanner.add_token { s with current := s.current + 1 }
          (if false = true then TokenType.lessEqual else TokenType.less) =
        some { s with
          current := s.current + 1
          tokens := s.tokens ++ [⟨TokenType.less, ['<'], Literal.none, s.line⟩] }
      rw [if_neg (by decide)]
      rw [@Scanner.add_token_ascii { s with current := s.current + 1 } TokenType.less ha
        (show s.start ≤ s.current + 1 by omega)
        (show s.current + 1 ≤ s.source.length by omega)]
      have hslice : sliceCC s.source s.start (s.current + 1) = ['<'] := by
        rw [hst, sliceCC_singleton hlt, hc]
      rw [hslice]
  · constructor
    · intro hnx
      obtain ⟨hlt2, heq2⟩ := List.getElem?_eq_some_iff.mp hnx
      rw [Scanner.scan_token_eq (Scanner.advance_lt hlt)]
      repeat rw [if_neg (by rw [hc]; decide)]
      rw [if_pos hc]
      rw [@Scanner.match_char_hit { s with current := s.current + 1 } '=' hb hlt2 heq2]
      show Scanner.add_token { s with current := s.current + 1 + 1 }
          (if true = true then TokenType.greaterEqual else TokenType.greater) =
        some { s with
          current := s.current + 1 + 1
          tokens := s.tokens ++ [⟨TokenType.greaterEqual, ['>', '='], Literal.none, s.line⟩] }
      rw [if_pos rfl]
      rw [@Scanner.add_token_ascii { s with current := s.current + 1 + 1 } TokenType.greaterEqual ha
        (show s.start ≤ s.current + 1 + 1 by omega)
        (show s.current + 1 + 1 ≤ s.source.length by omega)]
      have hslice : sliceCC s.source s.start (s.current + 1 + 1) = ['>', '='] := by
        rw [hst]
        rw [sliceCC_trans (show s.current ≤ s.current + 1 by omega)
          (show s.current + 1 ≤ s.current + 1 + 1 by omega)]
        rw [sliceCC_singleton hlt, hc]
        rw [sliceCC_singleton hlt2, heq2]
        rfl
      rw [hslice]
    · intro hnx
      have hmc : Scanner.match_char { s with current := s.current + 1 } '=' =
          some (false, { s with current := s.current + 1 }) := by
        by_cases hend : s.current + 1 < s.source.length
        · refine @Scanner.match_char_miss { s with current := s.current + 1 } '=' hb hend ?_
          show s.source[s.current + 1] ≠ '='
          intro he
          exact hnx (List.getElem?_eq_some_iff.mpr ⟨hend, he⟩)
        · exact @Scanner.match_char_end { s with current := s.current + 1 } '='
            (show byteLen s.source ≤ s.current + 1 by omega)
      rw [Scanner.scan_token_eq (Scanner.advance_lt hlt)]
      repeat rw [if_neg (by rw [hc]; decide)]
      rw [if_pos hc]
      rw [hmc]
      show Scanner.add_token { s with current := s.current + 1 }
          (if false = true then TokenType.greaterEqual else TokenType.greater) =
        some { s with
          current := s.current + 1
          tokens := s.tokens ++ [⟨TokenType.greater, ['>'], Literal.none, s.line⟩] }
      rw [if_neg (by decide)]
      rw [@Scanner.add_token_ascii { s with current := s.current + 1 } TokenType.greater ha
        (show s.start ≤ s.current + 1 by omega)
        (show s.current + 1 ≤ s.source.length by omega)]
      have hslice : sliceCC s.source s.start (s.current + 1) = ['>'] := by
        rw [hst, sliceCC_singleton hlt, hc]
      rw [hslice]

theorem C6_witness :
    ((['<', '='][1]? = some '=' →
        (Scanner.new ['<', '=']).scan_token =
          some ⟨['<', '='], [⟨TokenType.lessEqual, ['<', '='], Literal.none, 1⟩], 0, 2, 1⟩) ∧
      (['<', '='][1]? ≠ some '=' →
        (Scanner.new ['<', '=']).scan_token =
          some ⟨['<', '='], [⟨TokenType.less, ['<'], Literal.none, 1⟩], 0, 1, 1⟩)) ∧
    (scanTokens ['!', '='] = some [⟨TokenType.bangEqual, ['!', '='], Literal.none, 1⟩,
        ⟨TokenType.eof, [], Literal.none, 1⟩] ∧
      scanTokens ['!'] = some [⟨TokenType.bang, ['!'], Literal.none, 1⟩,
        ⟨TokenType.eof, [], Literal.none, 1⟩] ∧
      scanTokens ['=', '='] = some [⟨TokenType.equalEqual, ['=', '='], Literal.none, 1⟩,
        ⟨TokenType.eof, [], Literal.none, 1⟩] ∧
      scanTokens ['='] = some [⟨TokenType.equal, ['='], Literal.none, 1⟩,
        ⟨TokenType.eof, [], Literal.none, 1⟩]) :=
  @C6_operators (Scanner.new ['<', '=']) '<' TokenType.less TokenType.lessEqual
    (by decide) (by decide) (by decide) (by decide) (by decide)

/-- C7: a number literal's lexeme is the spec-prescribed
`numberLexemeSpec`: the maximal digit run, extended past a `.` only when
a digit immediately follows it; a trailing `.` is left unconsumed, so
`123.` scans as the Number `123` followed by a Dot token. -/
theorem C7_number {s : Scanner} (ha : asciiOnly s.source)
    (hsc : s.current = s.start + 1) (hlt : s.start < s.source.length)
    (hd : is_digit s.source[s.start] = true) :
    (s.number = some { s with
        current := s.start + (numberLexemeSpec s.source s.start).length
        tokens := s.tokens ++ [⟨TokenType.number, numberLexemeSpec s.source s.start,
          Literal.num (numberLexemeSpec s.source s.start), s.line⟩] }) ∧
    scanTokens ['1', '2', '3', '.'] =
      some [⟨TokenType.number, ['1', '2', '3'], Literal.num ['1', '2', '3'], 1⟩,
        ⟨TokenType.dot, ['.'], Literal.none, 1⟩,
        ⟨TokenType.eof, [], Literal.none, 1⟩] :=
  ⟨(Scanner.number_ascii ha hsc hlt hd).1, by decide⟩

theorem C7_witness :
    ((⟨['7'], [], 0, 1, 1⟩ : Scanner).number =
      some ⟨['7'], [⟨TokenType.number, ['7'], Literal.num ['7'], 1⟩], 0, 1, 1⟩) ∧
    scanTokens ['1', '2', '3', '.'] =
      some [⟨TokenType.number, ['1', '2', '3'], Literal.num ['1', '2', '3'], 1⟩,
        ⟨TokenType.dot, ['.'], Literal.none, 1⟩,
        ⟨TokenType.eof, [], Literal.none, 1⟩] :=
  @C7_number ⟨['7'], [], 0, 1, 1⟩ (by decide) (by decide) (by decide) (by decide)


/-- C8: an identifier lexeme is the maximal alphanumeric/underscore run;
the emitted kind is the keyword kind exactly when the whole lexeme is
one of the sixteen reserved spellings (exact, case-sensitive match, as
the iff conjunct states), else Identifier; concretely `and` scans to the
and-keyword token and `classify` to a single Identifier. -/
theorem C8_identifier {s : Scanner} (ha : asciiOnly s.source)
    (hsc : s.current = s.start + 1) (hlt : s.start < s.source.length)
    (hd : is_alpha s.source[s.start] = true) :
    (s.identifier = some { s with
        current := s.start + ((s.source.drop s.start).takeWhile is_alpha_numeric).length
        tokens := s.tokens ++
          [⟨(keywordOf ((s.source.drop s.start).takeWhile is_alpha_numeric)).getD
              TokenType.identifier,
            (s.source.drop s.start).takeWhile is_alpha_numeric, Literal.none, s.line⟩] }) ∧
    (∀ text : List Char, (∃ k, keywordOf text = some k) ↔
      (text = "and".toList ∨
        text = "class".toList ∨
        text = "else".toList ∨
        text = "false".toList ∨
        text = "for".toList ∨
        text = "fun".toList ∨
        text = "if".toList ∨
        text = "nil".toList ∨
        text = "or".toList ∨
        text = "print".toList ∨
        text = "return".toList ∨
        text = "super".toList ∨
        text = "this".toList ∨
        text = "true".toList ∨
        text = "var".toList ∨
        text = "while".toList)) ∧
    scanTokens "and".toList = some [⟨TokenType.kwAnd, "and".toList, Literal.none, 1⟩,
      ⟨TokenType.eof, [], Literal.none, 1⟩] ∧
    scanTokens "classify".toList =
      some [⟨TokenType.identifier, "classify".toList, Literal.none, 1⟩,
        ⟨TokenType.eof, [], Literal.none, 1⟩] :=
  ⟨Scanner.identifier_ascii ha hsc hlt hd, keywordOf_spellings, by decide, by decide⟩

theorem C8_witness :
    ((⟨['o', 'r'], [], 0, 1, 1⟩ : Scanner).identifier =
      some ⟨['o', 'r'], [⟨TokenType.kwOr, ['o', 'r'], Literal.none, 1⟩], 0, 2, 1⟩) ∧
    (∀ text : List Char, (∃ k, keywordOf text = some k) ↔
      (text = "and".toList ∨
          text = "class".toList ∨
          text = "else".toList ∨
          text = "false".toList ∨
          text = "for".toList ∨
          text = "fun".toList ∨
          text = "if".toList ∨
          text = "nil".toList ∨
          text = "or".toList ∨
          text = "print".toList ∨
          text = "return".toList ∨
          text = "super".toList ∨
          text = "this".toList ∨
          text = "true".toList ∨
          text = "var".toList ∨
          text = "while".toList)) ∧
    scanTokens "and".toList = some [⟨TokenType.kwAnd, "and".toList, Literal.none, 1⟩,
      ⟨TokenType.eof, [], Literal.none, 1⟩] ∧
    scanTokens "classify".toList =
      some [⟨TokenType.identifier, "classify".toList, Literal.none, 1⟩,
        ⟨TokenType.eof, [], Literal.none, 1⟩] :=
  C8_identifier (by decide) (by decide) (by decide) (by decide)


/-- C9: at a `/` followed by another `/`, the scanner discards the rest
of the physical line — up to but not including the newline (or end of
input) — and emits no token; a lone `/` emits the Slash token; and the
concrete scan of `// comment\n123` yields exactly one Number token, on
line 2. -/
theorem C9_comments {s : Scanner} (ha : asciiOnly s.source)
    (hst : s.start = s.current) (hlt : s.current < s.source.length)
    (hsl : s.source[s.current] = '/') :
    ((s.source[s.current + 1]? = some '/' →
      s.scan_token = some { s with current := s.current + 1 + 1 +
        ((s.source.drop (s.current + 1 + 1)).takeWhile
          (fun ch => decide (ch ≠ '\n'))).length }) ∧
    (s.source[s.current + 1]? ≠ some '/' →
      s.scan_token = some { s with
        current := s.current + 1
        tokens := s.tokens ++ [⟨TokenType.slash, ['/'], Literal.none, s.line⟩] })) ∧
    scanTokens "// comment\n123".toList =
      some [⟨TokenType.number, ['1', '2', '3'], Literal.num ['1', '2', '3'], 2⟩,
        ⟨TokenType.eof, [], Literal.none, 2⟩] := by
  have hb : byteLen s.source = s.source.length := ascii_byteLen ha
  refine ⟨⟨?_, ?_⟩, by decide⟩
  · intro hnx
    obtain ⟨hlt2, heq2⟩ := List.getElem?_eq_some_iff.mp hnx
    rw [Scanner.scan_token_eq (Scanner.advance_lt hlt)]
    repeat rw [if_neg (by rw [hsl]; decide)]
    rw [if_pos hsl]
    rw [@Scanner.match_char_hit { s with current := s.current + 1 } '/' hb hlt2 heq2]
    show (if true = true then
        commentLoopF (Scanner.fuel { s with current := s.current + 1 + 1 })
          { s with current := s.current + 1 + 1 }
      else Scanner.add_token { s with current := s.current + 1 + 1 } TokenType.slash) =
      some { s with current := s.current + 1 + 1 +
        ((s.source.drop (s.current + 1 + 1)).takeWhile
          (fun ch => decide (ch ≠ '\n'))).length }
    rw [if_pos rfl]
    exact commentLoopF_ascii (Scanner.fuel { s with current := s.current + 1 + 1 })
      { s with current := s.current + 1 + 1 } ha
      (show s.current + 1 + 1 ≤ s.source.length by omega)
      (show s.source.length - (s.current + 1 + 1) <
          Scanner.fuel { s with current := s.current + 1 + 1 } by
        show s.source.length - (s.current + 1 + 1) < byteLen s.source + 1
        omega)
  · intro hnx
    have hmc : Scanner.match_char { s with current := s.current + 1 } '/' =
        some (false, { s with current := s.current + 1 }) := by
      by_cases hend : s.current + 1 < s.source.length
      · refine @Scanner.match_char_miss { s with current := s.current + 1 } '/' hb hend ?_
        show s.source[s.current + 1] ≠ '/'
        intro he
        exact hnx (List.getElem?_eq_some_iff.mpr ⟨hend, he⟩)
      · exact @Scanner.match_char_end { s with current := s.current + 1 } '/'
          (show byteLen s.source ≤ s.current + 1 by omega)
    rw [Scanner.scan_token_eq (Scanner.advance_lt hlt)]
    repeat rw [if_neg (by rw [hsl]; decide)]
    rw [if_pos hsl]
    rw [hmc]
    show (if false = true then
        commentLoopF (Scanner.fuel { s with current := s.current + 1 })
          { s with current := s.current + 1 }
      else Scanner.add_token { s with current := s.current + 1 } TokenType.slash) =
      some { s with
        current := s.current + 1
        tokens := s.tokens ++ [⟨TokenType.slash, ['/'], Literal.none, s.line⟩] }
    rw [if_neg (by decide)]
    rw [@Scanner.add_token_ascii { s with current := s.current + 1 } TokenType.slash ha
      (show s.start ≤ s.current + 1 by omega)
      (show s.current + 1 ≤ s.source.length by omega)]
    have hslice : sliceCC s.source s.start (s.current + 1) = ['/'] := by
      rw [hst, sliceCC_singleton hlt, hsl]
    rw [hslice]

theorem C9_witness :
    ((['/', '/', 'x'][1]? = some '/' →
        (Scanner.new ['/', '/', 'x']).scan_token = some ⟨['/', '/', 'x'], [], 0, 3, 1⟩) ∧
      (['/', '/', 'x'][1]? ≠ some '/' →
        (Scanner.new ['/', '/', 'x']).scan_token =
          some ⟨['/', '/', 'x'], [⟨TokenType.slash, ['/'], Literal.none, 1⟩], 0, 1, 1⟩)) ∧
    scanTokens "// comment\n123".toList =
      some [⟨TokenType.number, ['1', '2', '3'], Literal.num ['1', '2', '3'], 2⟩,
        ⟨TokenType.eof, [], Literal.none, 2⟩] :=
  @C9_comments (Scanner.new ['/', '/', 'x']) (by decide) (by decide) (by decide) (by decide)

/-- C10: the scanner is single-use — `scan_tokens` never clears the
token buffer, so the sequence a first call returns already ends in Eof,
and a second call on the returned scanner does not rescan (the cursor
sits at the end) but returns the same sequence with one more Eof token
appended, hence containing two Eof tokens. -/
theorem C10_single_use {s t : Scanner} {ts : List Token}
    (hc : s.current ≤ s.source.length)
    (h : s.scan_tokens = some (ts, t)) :
    ∃ pre, ts = pre ++ [⟨TokenType.eof, [], Literal.none, t.line⟩] ∧
      t.scan_tokens = some
        ((pre ++ [⟨TokenType.eof, [], Literal.none, t.line⟩]) ++
          [⟨TokenType.eof, [], Literal.none, t.line⟩],
         { t with tokens := (pre ++ [⟨TokenType.eof, [], Literal.none, t.line⟩]) ++
            [⟨TokenType.eof, [], Literal.none, t.line⟩] }) := by
  unfold Scanner.scan_tokens at h
  split at h
  · exact Option.noConfusion h
  · rename_i s1 hl
    have hpair := Option.some_inj.mp h
    have hts : ts = s1.tokens ++ [⟨TokenType.eof, [], Literal.none, s1.line⟩] :=
      (congrArg Prod.fst hpair).symm
    have htt : t = { s1 with tokens := s1.tokens ++
        [⟨TokenType.eof, [], Literal.none, s1.line⟩] } :=
      (congrArg Prod.snd hpair).symm
    subst hts
    subst htt
    unfold Scanner.scanLoop at hl
    obtain ⟨b1, b2, b3⟩ := scanLoopF_bounds _ _ _ hc hl
    refine ⟨s1.tokens, rfl, ?_⟩
    unfold Scanner.scan_tokens Scanner.scanLoop
    have hloop := @scanLoopF_at_end
      (Scanner.fuel { s1 with
        tokens := s1.tokens ++ [⟨TokenType.eof, [], Literal.none, s1.line⟩] })
      { s1 with tokens := s1.tokens ++ [⟨TokenType.eof, [], Literal.none, s1.line⟩] }
      b3 (by unfold Scanner.fuel; omega)
    rw [hloop]

theorem C10_witness :
    ∃ pre : List Token, [⟨TokenType.eof, [], Literal.none, 1⟩] =
        pre ++ [⟨TokenType.eof, [], Literal.none, 1⟩] ∧
      (⟨[], [⟨TokenType.eof, [], Literal.none, 1⟩], 0, 0, 1⟩ : Scanner).scan_tokens =
        some ((pre ++ [⟨TokenType.eof, [], Literal.none, 1⟩]) ++
            [⟨TokenType.eof, [], Literal.none, 1⟩],
          ⟨[], (pre ++ [⟨TokenType.eof, [], Literal.none, 1⟩]) ++
            [⟨TokenType.eof, [], Literal.none, 1⟩], 0, 0, 1⟩) :=
  @C10_single_use (Scanner.new [])
    ⟨[], [⟨TokenType.eof, [], Literal.none, 1⟩], 0, 0, 1⟩
    [⟨TokenType.eof, [], Literal.none, 1⟩] (by decide) (by decide)
